import Mathlib

/-! staticgen: crawler, deduplicator and path mapping.

A shallow embedding of the parts of `tj/staticgen` that decide the checked
properties:

* `internal/deduplicator/deduplicator.go`: `normalize`, `Deduplicator.Filter`;
* `internal/crawler/crawler.go`: `follow`, `parseLinks`, `parseImports`,
  `Crawler.visit`, `Crawler.Queue`, `Crawler.crawl`;
* `staticgen.go`: `Generator.Start`, `Generator.queuePages`, `Generator.save`;
* `config.go`: `Config`.

Go strings are embedded as Lean strings, and the standard-library helpers the
source calls (`strings.HasPrefix`, `strings.TrimRight`, `path.Split`,
`filepath.Ext`, `filepath.Join`, `URL.String`, ...) are written out as
structurally recursive functions on the character list, so that every
definition evaluates on concrete inputs.
-/

namespace Staticgen

/-! ## Go string helpers -/

/-- Go `strings.HasPrefix(s, p)`. -/
def hasPrefix (s p : String) : Bool := p.data.isPrefixOf s.data

/-- Go `strings.HasSuffix(s, p)`. -/
def hasSuffix (s p : String) : Bool := p.data.reverse.isPrefixOf s.data.reverse

/-- Go `strings.TrimRight(s, cutset)`: all trailing characters that occur in
`cutset` are removed. -/
def trimRight (s cutset : String) : String :=
  ⟨(s.data.reverse.dropWhile (fun c => cutset.data.contains c)).reverse⟩

/-- Go `strings.TrimSuffix(s, p)`: `s` without the trailing `p`, when it ends in `p`. -/
def trimSuffix (s p : String) : String :=
  if hasSuffix s p then ⟨s.data.take (s.data.length - p.data.length)⟩ else s

/-- Removal of the first occurrence of `pat` in `s`; `s` itself when there is none. -/
def removeFirst (pat : List Char) : List Char → List Char
  | [] => []
  | c :: cs => if pat.isPrefixOf (c :: cs) then (c :: cs).drop pat.length
               else c :: removeFirst pat cs

/-- Go `strings.Replace(s, old, "", 1)` for a non-empty `old`. -/
def replaceFirstEmpty (s old : String) : String := ⟨removeFirst old.data s.data⟩

/-! ## `net/url.URL` -/

/-- Go `url.Userinfo`. -/
structure Userinfo where
  username : String
  password : String
  passwordSet : Bool
deriving DecidableEq

/-- Go `url.URL`, with the fields of the struct the repository was written against. -/
structure URL where
  Scheme : String
  Opaque : String
  User : Option Userinfo
  Host : String
  Path : String
  RawPath : String
  ForceQuery : Bool
  RawQuery : String
  Fragment : String
deriving DecidableEq

/-- The escaping modes of `net/url` that `URL.String` uses. -/
inductive Encoding where
  | encodePath
  | encodeUserPassword
  | encodeHost
  | encodeFragment
deriving DecidableEq

/-- The UTF-8 bytes of a character: a Go string is the byte sequence. -/
def utf8Bytes (c : Char) : List Nat :=
  let n := c.toNat
  if n < 128 then [n]
  else if n < 2048 then [192 + n / 64, 128 + n % 64]
  else if n < 65536 then [224 + n / 4096, 128 + (n / 64) % 64, 128 + n % 64]
  else [240 + n / 262144, 128 + (n / 4096) % 64, 128 + (n / 64) % 64, 128 + n % 64]

/-- The bytes of a Go string. -/
def strBytes (s : String) : List Nat := s.data.flatMap utf8Bytes

/-- Go `url.shouldEscape(c, mode)` on one byte. -/
def shouldEscape (b : Nat) (mode : Encoding) : Bool :=
  let c := Char.ofNat b
  if b ≥ 128 then true
  else if c.isAlphanum then false
  else if mode = Encoding.encodeHost ∧ c ∈ "!$&'()*+,;=:[]<>\"".data then false
  else if c ∈ "-_.~".data then false
  else if c ∈ "$&+,/:;=?@".data then
    match mode with
    | Encoding.encodePath => c = '?'
    | Encoding.encodeUserPassword => c = '@' ∨ c = '/' ∨ c = '?' ∨ c = ':'
    | Encoding.encodeFragment => false
    | Encoding.encodeHost => true
  else if mode = Encoding.encodeFragment ∧ c ∈ "!()*".data then false
  else true

/-- An upper-case hexadecimal digit. -/
def hexDigit (n : Nat) : Char := "0123456789ABCDEF".data.getD n '0'

/-- Go `url.escape(s, mode)` for the modes above, byte by byte. -/
def escapeBytes (mode : Encoding) : List Nat → List Char
  | [] => []
  | b :: bs =>
    if shouldEscape b mode then '%' :: hexDigit (b / 16) :: hexDigit (b % 16) :: escapeBytes mode bs
    else Char.ofNat b :: escapeBytes mode bs

/-- Go `url.escape(s, mode)`. -/
def escape (s : String) (mode : Encoding) : String := ⟨escapeBytes mode (strBytes s)⟩

/-- The value of a hexadecimal digit, as in Go `unhex`, when it is one. -/
def unhex (c : Char) : Option Nat :=
  if '0' ≤ c ∧ c ≤ '9' then some (c.toNat - '0'.toNat)
  else if 'a' ≤ c ∧ c ≤ 'f' then some (c.toNat - 'a'.toNat + 10)
  else if 'A' ≤ c ∧ c ≤ 'F' then some (c.toNat - 'A'.toNat + 10)
  else none

/-- Go `url.unescape(s, encodePath)` as a byte sequence; `none` on a malformed escape. -/
def unescapePath : List Char → Option (List Nat)
  | [] => some []
  | '%' :: a :: b :: rest =>
    match unhex a, unhex b, unescapePath rest with
    | some x, some y, some bs => some ((16 * x + y) :: bs)
    | _, _, _ => none
  | '%' :: _ => none
  | c :: rest =>
    match unescapePath rest with
    | some bs => some (utf8Bytes c ++ bs)
    | none => none

/-- Go `url.validEncoded(s, encodePath)`. -/
def validEncodedPath (s : String) : Bool :=
  s.data.all fun c =>
    c ∈ "!$&'()*+,;=:@[]%".data ∨ (utf8Bytes c).all fun b => !shouldEscape b Encoding.encodePath

/-- Go `URL.EscapedPath`. -/
def URL.EscapedPath (u : URL) : String :=
  if u.RawPath ≠ "" ∧ validEncodedPath u.RawPath ∧
      unescapePath u.RawPath.data = some (strBytes u.Path) then u.RawPath
  else if u.Path = "*" then "*"
  else escape u.Path Encoding.encodePath

/-- Go `Userinfo.String`. -/
def Userinfo.String (ui : Userinfo) : String :=
  let s := escape ui.username Encoding.encodeUserPassword
  if ui.passwordSet then s ++ ":" ++ escape ui.password Encoding.encodeUserPassword else s

/-- The part of `URL.String` written when `Opaque` is empty. -/
def URL.hierPart (u : URL) (start : String) : String :=
  let buf := start
  let buf :=
    if u.Scheme ≠ "" ∨ u.Host ≠ "" ∨ u.User ≠ none then
      let buf := if u.Host ≠ "" ∨ u.Path ≠ "" ∨ u.User ≠ none then buf ++ "//" else buf
      let buf := match u.User with
        | some ui => buf ++ ui.String ++ "@"
        | none => buf
      if u.Host ≠ "" then buf ++ escape u.Host Encoding.encodeHost else buf
    else buf
  let path := u.EscapedPath
  let buf := if path ≠ "" ∧ path.data.head? ≠ some '/' ∧ u.Host ≠ "" then buf ++ "/" else buf
  let buf :=
    if buf = "" ∧ ':' ∈ path.data.takeWhile (fun c => c ≠ '/') then buf ++ "./" else buf
  buf ++ path

/-- Go `URL.String`: the string form that the deduplicator uses as the key of
its visited map. -/
def URL.String (u : URL) : String :=
  let buf := if u.Scheme ≠ "" then u.Scheme ++ ":" else ""
  let buf := if u.Opaque ≠ "" then buf ++ u.Opaque else u.hierPart buf
  let buf := if u.ForceQuery ∨ u.RawQuery ≠ "" then buf ++ "?" ++ u.RawQuery else buf
  if u.Fragment ≠ "" then buf ++ "#" ++ escape u.Fragment Encoding.encodeFragment else buf

/-- A URL with the given scheme, host and path and every other field zero. -/
def mkURL (scheme host path : String) : URL :=
  { Scheme := scheme, Opaque := "", User := none, Host := host, Path := path,
    RawPath := "", ForceQuery := false, RawQuery := "", Fragment := "" }

/-! ## `internal/deduplicator` -/

/-- `normalize` of deduplicator.go: a URL whose path ends in "/" is copied and
the copy's path is `strings.TrimRight(path, "/")`; any other URL is returned as is. -/
def normalize (u : URL) : URL :=
  if hasSuffix u.Path "/" then { u with Path := trimRight u.Path "/" } else u

/-- The deduplication key of a URL: the string form of its normalized copy. -/
def fingerprint (u : URL) : String := (normalize u).String

/-- `Deduplicator` of deduplicator.go. The Go map `visited` is a set of strings,
held here as the list of its keys; `none` is the nil map of the zero value. -/
structure Deduplicator where
  visited : Option (List String)
deriving DecidableEq

/-- The zero value `var d deduplicator.Deduplicator`. -/
def Deduplicator.zero : Deduplicator := ⟨none⟩

/-- The keys of the visited map; a nil map has none. -/
def Deduplicator.keys (d : Deduplicator) : List String := d.visited.getD []

/-- The `for _, u := range urls` loop of `Filter`, on the map and the `filtered` slice. -/
def filterLoop (visited : List String) (filtered : List URL) : List URL → List String × List URL
  | [] => (visited, filtered)
  | u :: rest =>
    let u := normalize u
    if u.String ∈ visited then filterLoop visited filtered rest
    else filterLoop (u.String :: visited) (filtered ++ [u]) rest

/-- `Deduplicator.Filter` of deduplicator.go: the new state and the returned slice. -/
def Deduplicator.Filter (d : Deduplicator) (urls : List URL) : Deduplicator × List URL :=
  let visited := match d.visited with
    | none => []
    | some m => m
  let r := filterLoop visited [] urls
  (⟨some r.1⟩, r.2)

/-- The claimed result of `Filter`, in the words of the specification: the inputs
whose normalized string form is not among the keys at entry to the call. -/
def novelAtEntry (keys : List String) (urls : List URL) : List URL :=
  urls.filter fun u => decide (fingerprint u ∉ keys)

/-- The first occurrences: the normalized copy of each input whose fingerprint is
neither among the keys at entry nor the fingerprint of an earlier input of the list. -/
def firstNovel (keys : List String) (urls : List URL) : List URL :=
  (List.range urls.length).filterMap fun i =>
    (urls.get? i).bind fun x =>
      if fingerprint x ∉ keys ∧ fingerprint x ∉ (urls.take i).map fingerprint
      then some (normalize x) else none

/-! ## `internal/crawler`: extraction -/

/-- An element selected by `doc.Find("a, link")`, with its `href` and `src`
attributes when present. -/
structure Selection where
  href : Option String
  src : Option String
deriving DecidableEq

/-- A parsed document: its `a` and `link` elements in document order. -/
abbrev Document := List Selection

/-- The functions of `net/url`, `regexp` and `goquery` that the extractors call,
taken as parameters: `Parse` is `url.Parse`, `ResolveReference base ref` is
`base.ResolveReference(ref)`, `importCaptures b` is the list of the first
submatches of `atImportRe.FindAllSubmatch(b, -1)`, and `document b` is the
selection `Find("a, link")` of the HTML parse of `b`. -/
structure Lib where
  Parse : String → Except String URL
  ResolveReference : URL → URL → URL
  importCaptures : String → List String
  document : String → Document

/-- Go `s.AttrOr("href", s.AttrOr("src", ""))`. -/
def Selection.hrefOrSrc (s : Selection) : String :=
  match s.href with
  | some h => h
  | none => s.src.getD ""

/-- `follow` of crawler.go. -/
def follow (root u : URL) : Bool :=
  if u.Scheme ≠ "https" ∧ u.Scheme ≠ "http" then false
  else if u.Host ≠ root.Host then false
  else if !hasPrefix u.Path root.Path then false
  else true

/-- The three conditions of the follow predicate. -/
def Followed (root u : URL) : Prop :=
  (u.Scheme = "http" ∨ u.Scheme = "https") ∧ u.Host = root.Host ∧
    ∃ t : String, u.Path = root.Path ++ t

/-- The body of the `Each` callback of `parseLinks` on one element: the URL it
appends, if any. -/
def linkOf (lib : Lib) (root u : URL) (s : Selection) : Option URL :=
  let href := s.hrefOrSrc
  if href = "" then none
  else
    match lib.Parse href with
    | Except.error _ => none
    | Except.ok target =>
      let target := { target with Fragment := "", RawQuery := "" }
      let resolved := lib.ResolveReference u target
      if follow root resolved then some resolved else none

/-- `parseLinks` of crawler.go; it never returns an error. -/
def parseLinks (lib : Lib) (doc : Document) (root u : URL) : List URL :=
  doc.filterMap (linkOf lib root u)

/-- The loop of `parseImports` over the captured import strings; in the error
text the import is quoted as `%q` does for a string that needs no escape. -/
def importsLoop (lib : Lib) (root u : URL) (urls : List URL) :
    List String → Except String (List URL)
  | [] => Except.ok urls
  | s :: rest =>
    match lib.Parse s with
    | Except.error e => Except.error ("parsing css import \"" ++ s ++ "\": " ++ e)
    | Except.ok target =>
      let resolved := lib.ResolveReference u target
      if follow root resolved then importsLoop lib root u (urls ++ [resolved]) rest
      else importsLoop lib root u urls rest

/-- `parseImports` of crawler.go on the bytes `b` of a CSS file. -/
def parseImports (lib : Lib) (b : String) (root u : URL) : Except String (List URL) :=
  importsLoop lib root u [] (lib.importCaptures b)

/-! ## `staticgen.go`: extra pages and the path mapping -/

/-- `Generator.queuePages`: the URLs handed to `Crawler.Queue`, one per
configured page: a copy of the seed URL with `Path` set to the page. -/
def queuePages (pages : List String) (u : URL) : List URL :=
  pages.map fun p => { u with Path := p }

/-- Go `path.Split`: the path up to and including its last slash, and what follows. -/
def pathSplit (p : String) : String × String :=
  (⟨(p.data.reverse.dropWhile (fun c => c ≠ '/')).reverse⟩,
   ⟨(p.data.reverse.takeWhile (fun c => c ≠ '/')).reverse⟩)

/-- The scan of Go `filepath.Ext` from the end of the path: `rev` is what is
left to scan, reversed, and `acc` what has been scanned. -/
def extScan : List Char → List Char → List Char
  | [], _ => []
  | c :: rev, acc =>
    if c = '/' then []
    else if c = '.' then c :: acc
    else extScan rev (c :: acc)

/-- Go `filepath.Ext`: the suffix starting at the last dot of the last element,
empty when that element has no dot. -/
def filepathExt (p : String) : String := ⟨extScan p.data.reverse []⟩

/-- The elements of a path between its slashes. -/
def splitSlash : List Char → List (List Char)
  | [] => [[]]
  | c :: cs =>
    if c = '/' then [] :: splitSlash cs
    else
      match splitSlash cs with
      | [] => [[c]]
      | h :: t => (c :: h) :: t

/-- One element of the scan of Go `path.Clean`. The state is the list of the
elements written so far and the number of leading ".." elements that cannot
be backtracked over (`dotdot` of the Go code). -/
def cleanStep (rooted : Bool) (st : List (List Char) × Nat) (e : List Char) :
    List (List Char) × Nat :=
  if e = [] ∨ e = ['.'] then st
  else if e = ['.', '.'] then
    if st.1.length > st.2 then (st.1.dropLast, st.2)
    else if !rooted then (st.1 ++ [e], st.2 + 1)
    else st
  else (st.1 ++ [e], st.2)

/-- Go `path.Clean` (and `filepath.Clean` on Unix), computed element by element. -/
def pathClean (p : String) : String :=
  let rooted := p.data.head? = some '/'
  let out := ((splitSlash p.data).foldl (cleanStep rooted) ([], 0)).1
  let r := (if rooted then ['/'] else []) ++ ['/'].intercalate out
  if r = [] then "." else ⟨r⟩

/-- Go `filepath.Join` on Unix: leading empty elements are skipped, the rest is
joined with slashes and cleaned; the result is empty when all elements are. -/
def filepathJoin (elem : List String) : String :=
  match elem.dropWhile (fun e => e = "") with
  | [] => ""
  | es => pathClean ⟨['/'].intercalate (es.map String.data)⟩

/-- The destination filename `dst` of `Generator.save` for the output directory
`outDir` (the `Dir` of the configuration) and the URL path `urlPath`. -/
def saveFilename (outDir urlPath : String) : String :=
  let ext := filepathExt urlPath
  let (dir, file) := pathSplit urlPath
  let dst := filepathJoin [outDir, dir, file]
  if file ≠ "index.html" ∧ (ext = ".html" ∨ ext = "") then
    let file := replaceFirstEmpty file ".html"
    filepathJoin [outDir, dir, file, "index.html"]
  else dst

/-- The path mapping in the words of the specification: in the rewritten case
the ".html" suffix of `file` is stripped. -/
def specFilename (outDir urlPath : String) : String :=
  let ext := filepathExt urlPath
  let (dir, file) := pathSplit urlPath
  if file ≠ "index.html" ∧ (ext = ".html" ∨ ext = "") then
    filepathJoin [outDir, dir, trimSuffix file ".html", "index.html"]
  else filepathJoin [outDir, dir, file]

/-- The non-empty elements of a path. -/
def pathElems (l : List Char) : List (List Char) :=
  (splitSlash l).filter fun e => e ≠ []

/-- A rooted path in clean form: a slash followed by one or more elements
separated by single slashes, none of them empty, "." or "..". -/
def cleanRooted (p : String) : Bool :=
  match p.data with
  | '/' :: rest => (splitSlash rest).all fun n => n ≠ [] ∧ n ≠ ['.'] ∧ n ≠ ['.', '.']
  | _ => false

/-- The result of `path.Clean` from the non-empty elements of the path and
whether it is rooted. -/
def cleanOf (rooted : Bool) (els : List (List Char)) : String :=
  let out := (els.foldl (cleanStep rooted) ([], 0)).1
  let r := (if rooted then ['/'] else []) ++ ['/'].intercalate out
  if r = [] then "." else ⟨r⟩

/-- A path element that `path.Clean` copies: not empty, not "." and not "..". -/
def plainName (n : List Char) : Prop := n ≠ [] ∧ n ≠ ['.'] ∧ n ≠ ['.', '.']

/-- Whether the joined path of `filepath.Join(outDir, dir, ...)` is rooted, for a
`dir` that starts with a slash. -/
def rootedOf (outDir : String) : Bool :=
  if outDir = "" then true else outDir.data.head? = some '/'

/-! ## `internal/crawler`: visiting a target -/

/-- `Target` of crawler.go. -/
structure Target where
  Parent : Option URL
  URL : URL
deriving DecidableEq

/-- A response body as a reader: the bytes it yields and the error, if any,
that ends the read. -/
structure Body where
  data : String
  err : Option String
deriving DecidableEq

/-- `Resource` of crawler.go, without its `Duration`; `Body` is `none` for the
nil reader and `Error` is the text of the error. -/
structure Resource extends Target where
  StatusCode : Int
  Body : Option Body
  Error : Option String
deriving DecidableEq

/-- The fields of `http.Response` that `visit` reads. -/
structure Response where
  StatusCode : Int
  Status : String
  Body : Body
deriving DecidableEq

/-- What the request of `visit` comes to: `http.NewRequest` fails,
`HTTPClient.Do` fails, or a response is received. -/
inductive Exchange where
  | requestError (e : String)
  | transportError (e : String)
  | response (res : Response)
deriving DecidableEq

/-- The exported fields of `Crawler`. -/
structure Crawler where
  URL : URL
  Concurrency : Int
  Allow404 : Bool
deriving DecidableEq

/-- The three results of `visit`: child URLs, the resource, the error text. -/
abbrev VisitResult := List URL × Resource × Option String

/-- `visitCSS` of crawler.go: a read error of `ioutil.ReadAll` is returned,
otherwise the imports of the bytes read. -/
def visitCSS (lib : Lib) (r : Body) (root u : URL) : Except String (List URL) :=
  match r.err with
  | some e => Except.error e
  | none => parseImports lib r.data root u

/-- `visitHTML` of crawler.go: `NewDocumentFromReader` fails on a read error,
otherwise the links of the document. -/
def visitHTML (lib : Lib) (r : Body) (root u : URL) : Except String (List URL) :=
  match r.err with
  | some e => Except.error e
  | none => Except.ok (parseLinks lib (lib.document r.data) root u)

/-- The end of an extracting branch of `visit`: the body of the resource is
replaced by the buffer of the bytes read, and the extractor's result returned. -/
def extracted (r : Resource) (body : Body) (x : Except String (List URL)) : VisitResult :=
  let r := { r with Body := some ⟨body.data, none⟩ }
  match x with
  | Except.ok urls => (urls, r, none)
  | Except.error e => ([], r, some e)

/-- The `switch filepath.Ext(t.URL.Path)` of `visit`. -/
def Crawler.dispatch (c : Crawler) (lib : Lib) (t : Target) (r : Resource) (res : Response) :
    VisitResult :=
  let ext := filepathExt t.URL.Path
  if ext = ".css" then extracted r res.Body (visitCSS lib res.Body c.URL t.URL)
  else if ext = ".html" ∨ ext = ".htm" ∨ ext = "" then
    extracted r res.Body (visitHTML lib res.Body c.URL t.URL)
  else ([], r, none)

/-- `Crawler.visit` of crawler.go on the outcome `x` of its HTTP request. -/
def Crawler.visit (c : Crawler) (lib : Lib) (t : Target) (x : Exchange) : VisitResult :=
  let r : Resource := { toTarget := t, StatusCode := 0, Body := none, Error := none }
  match x with
  | Exchange.requestError e => ([], r, some e)
  | Exchange.transportError e => ([], r, some e)
  | Exchange.response res =>
    let r := { r with StatusCode := res.StatusCode, Body := some res.Body }
    if c.Allow404 ∧ res.StatusCode = 404 then ([], r, none)
    else if res.StatusCode ≥ 300 then ([], r, some (res.Status ++ " response"))
    else c.dispatch lib t r res

/-! ## `internal/crawler`: the crawl as a transition system -/

/-- The state of a running crawler. `pending` is the counter of the wait
group, `senders` the goroutines started by `Queue` and `crawl` with the
Targets each has still to send on `targets`, `visiting` the Targets received
by workers, `emitting` the workers blocked on `c.resources <- r` (with `true`
for a worker on the error path, which returns afterwards), `resources` what
has been sent on the resource channel, `idle` the number of workers waiting
on `targets`, `done` whether `done` is closed. `accepted` records every
Target handed to a sender, in order. -/
structure CrawlState where
  pending : Int
  duplicates : Deduplicator
  senders : List (List Target)
  visiting : List Target
  emitting : List (Resource × Bool)
  resources : List Resource
  idle : Nat
  done : Bool
  accepted : List Target
deriving DecidableEq

/-- `Crawler.Queue`: `pending.Add(1)` and a goroutine that sends the Target. -/
def CrawlState.Queue (s : CrawlState) (u : URL) : CrawlState :=
  { s with pending := s.pending + 1,
           senders := s.senders ++ [[⟨none, u⟩]],
           accepted := s.accepted ++ [⟨none, u⟩] }

/-- `Crawler.Start`: the seed is queued and the workers started (one when
`Concurrency` is zero). -/
def Crawler.Start (c : Crawler) : CrawlState :=
  CrawlState.Queue
    { pending := 0, duplicates := Deduplicator.zero, senders := [], visiting := [],
      emitting := [], resources := [],
      idle := if c.Concurrency = 0 then 1 else c.Concurrency.toNat,
      done := false, accepted := [] }
    c.URL

/-- The transitions of a run after `Start`. -/
inductive Action where
  /-- `Crawler.Queue(u)`, as called by `Generator.queuePages`. -/
  | queue (u : URL)
  /-- An idle worker receives the next Target of sender `i`. -/
  | receive (i : Nat)
  /-- The worker holding `visiting[i]` returns from `visit` and, without error,
  filters the children, adds them to `pending` and starts their sender. -/
  | process (i : Nat)
  /-- The worker `emitting[i]` sends its resource and calls `pending.Done()`. -/
  | emit (i : Nat)
  /-- The supervisor returns from `pending.Wait()`, cancels and closes `done`. -/
  | supervise
deriving DecidableEq

/-- One transition of the crawl of `c`, where `server` gives the outcome of
the HTTP request for each URL; `none` when the transition is not enabled. -/
def step (c : Crawler) (lib : Lib) (server : URL → Exchange) (s : CrawlState) :
    Action → Option CrawlState
  | Action.queue u => some (s.Queue u)
  | Action.receive i =>
    match s.senders.get? i with
    | some (t :: rest) =>
      if s.idle = 0 then none
      else some { s with senders := s.senders.set i rest, visiting := s.visiting ++ [t],
                         idle := s.idle - 1 }
    | _ => none
  | Action.process i =>
    match s.visiting.get? i with
    | none => none
    | some t =>
      match c.visit lib t (server t.URL) with
      | (_, r, some e) =>
        some { s with visiting := s.visiting.eraseIdx i,
                      emitting := s.emitting ++ [({ r with Error := some e }, true)] }
      | (urls, r, none) =>
        let f := s.duplicates.Filter urls
        let children : List Target := f.2.map fun u => ⟨some t.URL, u⟩
        some { s with visiting := s.visiting.eraseIdx i,
                      duplicates := f.1,
                      pending := s.pending + f.2.length,
                      senders := s.senders ++ [children],
                      accepted := s.accepted ++ children,
                      emitting := s.emitting ++ [(r, false)] }
  | Action.emit i =>
    match s.emitting.get? i with
    | none => none
    | some (r, exits) =>
      some { s with emitting := s.emitting.eraseIdx i,
                    resources := s.resources ++ [r],
                    pending := s.pending - 1,
                    idle := if exits then s.idle else s.idle + 1 }
  | Action.supervise =>
    if s.pending = 0 ∧ s.done = false then some { s with done := true } else none

/-- The state after a sequence of transitions, when each is enabled. -/
def run (c : Crawler) (lib : Lib) (server : URL → Exchange) :
    CrawlState → List Action → Option CrawlState
  | s, [] => some s
  | s, a :: as =>
    match step c lib server s a with
    | none => none
    | some s1 => run c lib server s1 as

/-- The fingerprints of the Targets accepted for fetching so far. -/
def CrawlState.acceptedKeys (s : CrawlState) : List String :=
  s.accepted.map fun t => fingerprint t.URL

/-- A site of one page that links to "/": the library functions on the strings
that occur in its crawl. The reference "/" parses to a URL with that path
alone, and resolving a reference with an absolute path and neither scheme
nor host against a base keeps the base but for the path. -/
def homeLib : Lib :=
  { Parse := fun s => if s = "/" then Except.ok (mkURL "" "" "/") else Except.error "parse",
    ResolveReference := fun base r => { base with Path := r.Path, RawPath := "",
                                                  RawQuery := r.RawQuery, Fragment := r.Fragment },
    importCaptures := fun _ => [],
    document := fun _ => [⟨some "/", none⟩] }

/-- The server of that site: every request is answered 200 with the page. -/
def homeServer : URL → Exchange := fun _ =>
  Exchange.response { StatusCode := 200, Status := "200 OK",
                      Body := ⟨"<a href=\"/\">home</a>", none⟩ }

/-- The crawler of that site, seeded with "http://h/". -/
def homeCrawler : Crawler :=
  { URL := mkURL "http" "h" "/", Concurrency := 1, Allow404 := false }

/-- The fingerprints of the accepted Targets that came through `Filter`: the
children, which carry a parent. -/
def CrawlState.childKeys (s : CrawlState) : List String :=
  (s.accepted.filter fun t => t.Parent.isSome).map fun t => t.URL.String

/-! ## `config.go` and `staticgen.go`: the generator -/

/-- `Config` of config.go; `ResourceTimeout` in seconds. -/
structure Config where
  URL : String
  Dir : String
  Command : String
  Pages : List String
  Concurrency : Int
  Allow404 : Bool
  ResourceTimeout : Int
deriving DecidableEq

/-- The crawler that `Generator.Start` sets up for the parsed seed URL `u`. The
composite literal names `URL`, `Concurrency` and `HTTPClient`; the field
`Allow404` is not among them and has its zero value. -/
def Generator.Start (cfg : Config) (u : URL) : Crawler :=
  { URL := u, Concurrency := cfg.Concurrency, Allow404 := false }

/-- The resource that a worker of `crawl` sends for the Target `t`: the one
returned by `visit`, with `Error` set when `visit` returned an error. -/
def Crawler.crawlResource (c : Crawler) (lib : Lib) (t : Target) (x : Exchange) : Resource :=
  match c.visit lib t x with
  | (_, r, some e) => { r with Error := some e }
  | (_, r, none) => r

/-- `EventVisitedResource` of events.go, without its `Duration`. -/
structure EventVisitedResource extends Target where
  StatusCode : Int
  Filename : String
  Error : Option String
deriving DecidableEq

/-- `Generator.save`: the event it emits and the file it writes, as the
filename and the body copied to it; no file when the resource has an error. -/
def Generator.save (cfg : Config) (r : Resource) :
    EventVisitedResource × Option (String × Option Body) :=
  let dst := saveFilename cfg.Dir r.URL.Path
  let ev : EventVisitedResource :=
    { toTarget := r.toTarget, StatusCode := r.StatusCode, Error := r.Error, Filename := dst }
  match r.Error with
  | some _ => (ev, none)
  | none => (ev, some (dst, r.Body))

/-- A configuration with `allow_404` set and the defaults of `Config.Load`
for the rest, but for the URL. -/
def allow404Config : Config :=
  { URL := "http://h/", Dir := "build", Command := "", Pages := [], Concurrency := 30,
    Allow404 := true, ResourceTimeout := 10 }

/-- A 404 response with a body. -/
def notFound : Exchange :=
  Exchange.response { StatusCode := 404, Status := "404 Not Found",
                      Body := ⟨"<h1>Not found</h1>", none⟩ }

/-! ## `net/url`: resolution of a reference -/

/-- Go `strings.TrimPrefix(s, "/")`. -/
def trimPrefixSlash : List Char → List Char
  | '/' :: rest => rest
  | l => l

/-- One element of the loop of Go `url.resolvePath` over the elements of the path. -/
def resolveStep (dst : List (List Char)) (e : List Char) : List (List Char) :=
  if e = ['.'] then dst
  else if e = ['.', '.'] then dst.dropLast
  else dst ++ [e]

/-- Go `url.resolvePath(base, ref)`. -/
def resolvePath (base ref : String) : String :=
  let full : List Char :=
    if ref = "" then base.data
    else if ref.data.head? ≠ some '/' then (pathSplit base).1.data ++ ref.data
    else ref.data
  if full = [] then ""
  else
    let src := splitSlash full
    let dst := src.foldl resolveStep []
    let dst :=
      if src.getLast? = some ['.'] ∨ src.getLast? = some ['.', '.'] then dst ++ [[]] else dst
    ⟨'/' :: trimPrefixSlash (['/'].intercalate dst)⟩

/-- Go `URL.ResolveReference`: `u.ResolveReference(ref)`. The `Path` and `RawPath`
that `url.setPath(p)` stores for an escaped path `p` are given by `setPath p`. -/
def resolveReference (setPath : String → String × String) (u ref : URL) : URL :=
  let url := ref
  let url := if ref.Scheme = "" then { url with Scheme := u.Scheme } else url
  if ref.Scheme ≠ "" ∨ ref.Host ≠ "" ∨ ref.User ≠ none then
    let p := setPath (resolvePath ref.EscapedPath "")
    { url with Path := p.1, RawPath := p.2 }
  else if ref.Opaque ≠ "" then { url with User := none, Host := "", Path := "" }
  else
    let url :=
      if ref.Path = "" ∧ ref.RawQuery = "" then
        let url := { url with RawQuery := u.RawQuery }
        if ref.Fragment = "" then { url with Fragment := u.Fragment } else url
      else url
    let p := setPath (resolvePath u.EscapedPath ref.EscapedPath)
    { url with Host := u.Host, User := u.User, Path := p.1, RawPath := p.2 }

/-- Go `URL.setPath(p)` for a `p` without percent escapes, which `unescape`
leaves as it is: `RawPath` is set only when the default encoding differs. -/
def setPathUnescaped (p : String) : String × String :=
  (p, if escape p Encoding.encodePath = p then "" else p)

/-- A style sheet at "http://h/style.css" that imports "reset.css?v=2#top": the
library functions on the strings that occur. `url.Parse` splits the reference
into path, query and fragment. -/
def cssLib : Lib :=
  { Parse := fun s =>
      if s = "reset.css?v=2#top" then
        Except.ok { mkURL "" "" "reset.css" with RawQuery := "v=2", Fragment := "top" }
      else if s = "reset.css" then Except.ok (mkURL "" "" "reset.css")
      else Except.error "parse",
    ResolveReference := resolveReference setPathUnescaped,
    importCaptures := fun _ => ["reset.css?v=2#top"],
    document := fun _ => [⟨some "reset.css?v=2#top", none⟩] }

/-- The accepted Targets whose resource has not been emitted: those still held
by a sender, those being visited, and those of the workers waiting to send
their resource. -/
def CrawlState.unemitted (s : CrawlState) : List Target :=
  s.senders.flatten ++ s.visiting ++ s.emitting.map fun e => e.1.toTarget

/-- The Targets of the resources emitted so far. -/
def CrawlState.emitted (s : CrawlState) : List Target :=
  s.resources.map Resource.toTarget

/-- The pending counter is the number of accepted Targets whose resource has
not been emitted, and the accepted Targets are the emitted and the unemitted
ones. -/
def Counted (s : CrawlState) : Prop :=
  s.pending = (s.unemitted.length : Int) ∧ s.accepted.Perm (s.emitted ++ s.unemitted)

/-- The state of the one-page site after the seed has been received and processed. -/
def homeMidway : CrawlState :=
  (run homeCrawler homeLib homeServer homeCrawler.Start
    [Action.receive 0, Action.process 0]).getD homeCrawler.Start

/-- The state of the one-page site when every resource has been emitted. -/
def homeDrained : CrawlState :=
  (run homeCrawler homeLib homeServer homeCrawler.Start
    [Action.receive 0, Action.process 0, Action.emit 0, Action.receive 1, Action.process 0,
     Action.emit 0]).getD homeCrawler.Start

/-! ## Lemmas on strings -/

theorem hasSuffix_trimRight (p : String) : hasSuffix (trimRight p "/") "/" = false := by
  unfold hasSuffix trimRight
  simp only [List.reverse_reverse]
  have h : ∀ l : List Char, ("/".data.reverse).isPrefixOf
      (l.dropWhile fun c => "/".data.contains c) = false := by
    intro l
    induction l with
    | nil => rfl
    | cons c cs ih =>
      by_cases hc : c = '/'
      · subst hc
        simpa [List.dropWhile] using ih
      · have hd : "/".data = ['/'] := rfl
        have hc2 : ¬ '/' = c := fun e => hc e.symm
        simp [hd, List.dropWhile, List.isPrefixOf, hc, hc2]
  exact h _

theorem normalize_idem (u : URL) : normalize (normalize u) = normalize u := by
  by_cases h : hasSuffix u.Path "/" = true
  · have h1 : normalize u = { u with Path := trimRight u.Path "/" } := by simp [normalize, h]
    rw [h1]
    simp [normalize, hasSuffix_trimRight]
  · have h1 : normalize u = u := by simp [normalize, h]
    rw [h1, h1]

theorem fingerprint_normalize (u : URL) : fingerprint (normalize u) = fingerprint u := by
  simp [fingerprint, normalize_idem]

/-! ## Lemmas on `filterLoop` -/

theorem filterLoop_acc (v : List String) (acc : List URL) (xs : List URL) :
    filterLoop v acc xs = ((filterLoop v [] xs).1, acc ++ (filterLoop v [] xs).2) := by
  induction xs generalizing v acc with
  | nil => simp [filterLoop]
  | cons x rest ih =>
    by_cases h : (normalize x).String ∈ v
    · simp only [filterLoop, h, if_true]
      exact ih v acc
    · simp only [filterLoop, h, if_false]
      rw [ih (_ :: v) (acc ++ [normalize x]), ih (_ :: v) ([] ++ [normalize x])]
      simp

theorem filterLoop_cons_seen (v : List String) (x : URL) (rest : List URL)
    (h : fingerprint x ∈ v) : filterLoop v [] (x :: rest) = filterLoop v [] rest := by
  have h1 : (normalize x).String ∈ v := h
  simp [filterLoop, h1]

theorem filterLoop_cons_new (v : List String) (x : URL) (rest : List URL)
    (h : fingerprint x ∉ v) :
    filterLoop v [] (x :: rest) =
      ((filterLoop (fingerprint x :: v) [] rest).1,
        normalize x :: (filterLoop (fingerprint x :: v) [] rest).2) := by
  have h1 : (normalize x).String ∉ v := h
  simp only [filterLoop, h1, if_false]
  rw [filterLoop_acc]
  rfl

theorem filterLoop_keys (v : List String) (xs : List URL) (s : String) :
    s ∈ (filterLoop v [] xs).1 ↔ s ∈ v ∨ s ∈ xs.map fingerprint := by
  induction xs generalizing v with
  | nil => simp [filterLoop]
  | cons x rest ih =>
    by_cases h : fingerprint x ∈ v
    · rw [filterLoop_cons_seen v x rest h, ih]
      constructor
      · rintro (h1 | h1)
        · exact Or.inl h1
        · exact Or.inr (by simp [h1])
      · rintro (h1 | h1)
        · exact Or.inl h1
        · simp only [List.map_cons, List.mem_cons] at h1
          rcases h1 with h1 | h1
          · exact Or.inl (h1 ▸ h)
          · exact Or.inr h1
    · rw [filterLoop_cons_new v x rest h]
      simp only [ih, List.mem_cons, List.map_cons]
      tauto

theorem filterLoop_out (v : List String) (xs : List URL) :
    (filterLoop v [] xs).2 = firstNovel v xs := by
  induction xs generalizing v with
  | nil => simp [filterLoop, firstNovel]
  | cons x rest ih =>
    unfold firstNovel
    rw [List.length_cons, List.range_succ_eq_map, List.filterMap_cons, List.filterMap_map]
    by_cases h : fingerprint x ∈ v
    · rw [filterLoop_cons_seen v x rest h, ih]
      simp only [List.get?_cons_zero, Option.some_bind, h, not_true_eq_false, false_and,
        if_false]
      unfold firstNovel
      apply List.filterMap_congr
      intro i _
      simp only [Function.comp, List.get?_cons_succ, List.take_succ_cons, List.map_cons,
        List.mem_cons, not_or]
      cases hx : rest.get? i with
      | none => rfl
      | some y =>
        simp only [Option.some_bind]
        by_cases hy : fingerprint y ∈ v
        · simp [hy]
        · have hne : fingerprint y ≠ fingerprint x := fun e => hy (e ▸ h)
          simp [hy, hne]
    · rw [filterLoop_cons_new v x rest h, ih]
      simp only [List.get?_cons_zero, Option.some_bind, h, not_false_eq_true, true_and,
        List.take_zero, List.map_nil, List.not_mem_nil, if_true]
      congr 1
      unfold firstNovel
      apply List.filterMap_congr
      intro i _
      simp only [Function.comp, List.get?_cons_succ, List.take_succ_cons, List.map_cons,
        List.mem_cons, not_or]
      cases hx : rest.get? i with
      | none => rfl
      | some y =>
        simp only [Option.some_bind]
        by_cases hy : fingerprint y ∈ v <;> by_cases hne : fingerprint y = fingerprint x <;>
          simp [hy, hne]

theorem filterLoop_all_seen (v : List String) (xs : List URL)
    (h : ∀ x ∈ xs, fingerprint x ∈ v) : filterLoop v [] xs = (v, []) := by
  induction xs with
  | nil => rfl
  | cons x rest ih =>
    rw [filterLoop_cons_seen v x rest (h x (by simp))]
    exact ih fun y hy => h y (by simp [hy])

theorem firstNovel_normal (v : List String) (xs : List URL) :
    ∀ u ∈ firstNovel v xs, ∃ x ∈ xs, u = normalize x ∧ fingerprint x ∉ v := by
  intro u hu
  simp only [firstNovel, List.mem_filterMap, List.mem_range] at hu
  obtain ⟨i, _, hi⟩ := hu
  cases hx : xs.get? i with
  | none =>
    simp only [hx, Option.none_bind] at hi
    cases hi
  | some y =>
    simp only [hx, Option.some_bind] at hi
    split at hi
    · rename_i hc
      refine ⟨y, List.get?_mem hx, ?_, hc.1⟩
      exact (Option.some.inj hi).symm
    · simp at hi

theorem filterLoop_sublist (v : List String) (xs : List URL) :
    ((filterLoop v [] xs).2).Sublist (xs.map normalize) := by
  induction xs generalizing v with
  | nil => simp [filterLoop]
  | cons x rest ih =>
    by_cases h : fingerprint x ∈ v
    · rw [filterLoop_cons_seen v x rest h]
      exact List.Sublist.cons _ (ih v)
    · rw [filterLoop_cons_new v x rest h]
      exact List.Sublist.cons₂ _ (ih _)

theorem filterLoop_covers (v : List String) (xs : List URL) (u : URL) (hu : u ∈ xs)
    (hn : fingerprint u ∉ v) : ∃ w ∈ (filterLoop v [] xs).2, w.String = fingerprint u := by
  induction xs generalizing v with
  | nil => cases hu
  | cons x rest ih =>
    by_cases h : fingerprint x ∈ v
    · rw [filterLoop_cons_seen v x rest h]
      rcases List.mem_cons.1 hu with e | hr
      · exact absurd (e ▸ h) hn
      · exact ih v hr hn
    · rw [filterLoop_cons_new v x rest h]
      by_cases e : fingerprint u = fingerprint x
      · exact ⟨normalize x, by simp, e.symm⟩
      · rcases List.mem_cons.1 hu with e1 | hr
        · exact absurd (by rw [e1]) e
        · obtain ⟨w, hw, hs⟩ := ih (fingerprint x :: v) hr (by simp [e, hn])
          exact ⟨w, by simp [hw], hs⟩

theorem Filter_fst_keys (d : Deduplicator) (xs : List URL) :
    (d.Filter xs).1.keys = (filterLoop d.keys [] xs).1 := by
  cases d with
  | mk visited => cases visited <;> rfl

theorem Filter_snd (d : Deduplicator) (xs : List URL) :
    (d.Filter xs).2 = (filterLoop d.keys [] xs).2 := by
  cases d with
  | mk visited => cases visited <;> rfl

theorem Filter_all_seen (d : Deduplicator) (xs : List URL)
    (h : ∀ x ∈ xs, fingerprint x ∈ d.keys) : (d.Filter xs).2 = [] := by
  rw [Filter_snd, filterLoop_all_seen _ _ h]

theorem hasPrefix_iff (s p : String) : hasPrefix s p = true ↔ ∃ t : String, s = p ++ t := by
  unfold hasPrefix
  rw [List.isPrefixOf_iff_prefix]
  constructor
  · rintro ⟨l, hl⟩
    exact ⟨⟨l⟩, String.ext (by simp [hl])⟩
  · rintro ⟨t, ht⟩
    exact ⟨t.data, by simp [ht]⟩

theorem follow_eq_true_iff (root u : URL) : follow root u = true ↔ Followed root u := by
  unfold Followed
  rw [← hasPrefix_iff]
  unfold follow
  by_cases h1 : u.Scheme = "https" <;> by_cases h2 : u.Scheme = "http" <;>
    by_cases h3 : u.Host = root.Host <;>
    by_cases h4 : hasPrefix u.Path root.Path = true <;> simp [h1, h2, h3, h4]

theorem linkOf_follow (lib : Lib) (root u : URL) (s : Selection) (x : URL)
    (h : linkOf lib root u s = some x) : follow root x = true := by
  dsimp only [linkOf] at h
  split at h
  · cases h
  · split at h
    · cases h
    · split at h
      · rename_i hf
        cases h
        exact hf
      · cases h

theorem importsLoop_follow (lib : Lib) (root u : URL) (caps : List String) :
    ∀ acc urls, (∀ x ∈ acc, follow root x = true) →
      importsLoop lib root u acc caps = Except.ok urls → ∀ x ∈ urls, follow root x = true := by
  induction caps with
  | nil =>
    intro acc urls hacc h
    simp only [importsLoop] at h
    cases h
    exact hacc
  | cons c rest ih =>
    intro acc urls hacc h
    simp only [importsLoop] at h
    split at h
    · cases h
    · split at h
      · rename_i hf
        refine ih _ urls ?_ h
        intro x hx
        rcases List.mem_append.1 hx with hx | hx
        · exact hacc x hx
        · rw [List.mem_singleton.1 hx]
          exact hf
      · exact ih _ urls hacc h

theorem trimRight_of_not_hasSuffix (p : String) (h : hasSuffix p "/" = false) :
    trimRight p "/" = p := by
  unfold hasSuffix at h
  unfold trimRight
  apply String.ext
  have hd : "/".data = ['/'] := rfl
  rw [hd] at h ⊢
  simp only
  cases hr : p.data.reverse with
  | nil =>
    have : p.data = [] := by simpa using hr
    simp [this]
  | cons c cs =>
    rw [hr] at h
    have hc : c ≠ '/' := by
      intro e
      subst e
      simp [List.isPrefixOf] at h
    have hc2 : ¬ '/' = c := fun e => hc e.symm
    simp only [List.dropWhile, List.contains, List.elem, hc, hc2]
    have : (c == '/') = false := by simp [hc]
    simp only [this]
    rw [← hr, List.reverse_reverse]

theorem normalize_eq (u : URL) : normalize u = { u with Path := trimRight u.Path "/" } := by
  by_cases h : hasSuffix u.Path "/" = true
  · simp [normalize, h]
  · have h2 : hasSuffix u.Path "/" = false := by simpa using h
    rw [trimRight_of_not_hasSuffix _ h2]
    simp [normalize, h]

theorem trimRight_append_slash (x : String) : trimRight (x ++ "/") "/" = trimRight x "/" := by
  unfold trimRight
  apply String.ext
  have hd : "/".data = ['/'] := rfl
  simp [hd, List.dropWhile]

theorem extracted_status (r : Resource) (body : Body) (x : Except String (List URL)) :
    (extracted r body x).2.1.StatusCode = r.StatusCode := by
  cases x <;> rfl

theorem dispatch_status (c : Crawler) (lib : Lib) (t : Target) (r : Resource) (res : Response) :
    (c.dispatch lib t r res).2.1.StatusCode = r.StatusCode := by
  unfold Crawler.dispatch
  dsimp only
  split
  · exact extracted_status _ _ _
  · split
    · exact extracted_status _ _ _
    · rfl

/-! ## Lemmas on paths -/

theorem splitSlash_ne_nil (l : List Char) : splitSlash l ≠ [] := by
  induction l with
  | nil => simp [splitSlash]
  | cons c cs ih =>
    unfold splitSlash
    split
    · simp
    · split <;> simp

theorem splitSlash_append (a b : List Char) :
    splitSlash (a ++ '/' :: b) = splitSlash a ++ splitSlash b := by
  induction a with
  | nil => simp [splitSlash]
  | cons c cs ih =>
    by_cases hc : c = '/'
    · subst hc
      simp [splitSlash, ih]
    · have h1 : splitSlash (c :: (cs ++ '/' :: b)) =
          match splitSlash (cs ++ '/' :: b) with
          | [] => [[c]]
          | h :: t => (c :: h) :: t := by
        rw [splitSlash]
        simp [hc]
      have h2 : splitSlash (c :: cs) =
          match splitSlash cs with
          | [] => [[c]]
          | h :: t => (c :: h) :: t := by
        rw [splitSlash]
        simp [hc]
      rw [List.cons_append, h1, h2, ih]
      cases hs : splitSlash cs with
      | nil => exact absurd hs (splitSlash_ne_nil cs)
      | cons h t => rfl

theorem splitSlash_of_not_mem (e : List Char) (h : '/' ∉ e) : splitSlash e = [e] := by
  induction e with
  | nil => rfl
  | cons c cs ih =>
    have hc : c ≠ '/' := fun e => h (by simp [e])
    have hcs : '/' ∉ cs := fun m => h (by simp [m])
    rw [splitSlash]
    simp [hc, ih hcs]

theorem splitSlash_not_mem (l : List Char) : ∀ e ∈ splitSlash l, '/' ∉ e := by
  induction l with
  | nil => simp [splitSlash]
  | cons c cs ih =>
    by_cases hc : c = '/'
    · subst hc
      intro e he
      simp only [splitSlash, if_true, List.mem_cons] at he
      rcases he with he | he
      · simp [he]
      · exact ih e he
    · intro e he
      rw [splitSlash] at he
      simp only [hc, if_false] at he
      cases hs : splitSlash cs with
      | nil => exact absurd hs (splitSlash_ne_nil cs)
      | cons h t =>
        rw [hs] at he ih
        simp only [List.mem_cons] at he
        rcases he with he | he
        · rw [he]
          have := ih h (by simp)
          simp only [List.mem_cons, not_or]
          exact ⟨fun e => hc e.symm, this⟩
        · exact ih e (by simp [he])

theorem intercalate_splitSlash (l : List Char) : ['/'].intercalate (splitSlash l) = l := by
  induction l with
  | nil => rfl
  | cons c cs ih =>
    by_cases hc : c = '/'
    · subst hc
      rw [splitSlash]
      simp only [if_true]
      cases hs : splitSlash cs with
      | nil => exact absurd hs (splitSlash_ne_nil cs)
      | cons h t =>
        rw [hs] at ih
        rw [← ih]
        simp [List.intercalate, List.intersperse]
    · rw [splitSlash]
      simp only [hc, if_false]
      cases hs : splitSlash cs with
      | nil => exact absurd hs (splitSlash_ne_nil cs)
      | cons h t =>
        rw [hs] at ih
        rw [← ih]
        cases t <;> simp [List.intercalate, List.intersperse]

theorem splitSlash_intercalate (names : List (List Char)) (hne : names ≠ [])
    (h : ∀ n ∈ names, '/' ∉ n) : splitSlash (['/'].intercalate names) = names := by
  induction names with
  | nil => exact absurd rfl hne
  | cons n rest ih =>
    cases rest with
    | nil =>
      have : ['/'].intercalate [n] = n := by simp [List.intercalate, List.intersperse]
      rw [this]
      exact splitSlash_of_not_mem n (h n (by simp))
    | cons m rest =>
      have e : ['/'].intercalate (n :: m :: rest) = n ++ '/' :: ['/'].intercalate (m :: rest) := by
        simp [List.intercalate, List.intersperse]
      rw [e, splitSlash_append, splitSlash_of_not_mem n (h n (by simp)),
        ih (by simp) (fun x hx => h x (by simp [hx]))]
      rfl

theorem pathElems_append (a b : List Char) :
    pathElems (a ++ '/' :: b) = pathElems a ++ pathElems b := by
  simp [pathElems, splitSlash_append]

theorem pathElems_nil : pathElems [] = [] := by
  simp [pathElems, splitSlash]

theorem pathElems_slash (b : List Char) : pathElems ('/' :: b) = pathElems b := by
  have := pathElems_append [] b
  simpa [pathElems_nil] using this

theorem pathElems_append_slash (a : List Char) : pathElems (a ++ ['/']) = pathElems a := by
  rw [pathElems_append, pathElems_nil, List.append_nil]

theorem foldl_cleanStep_filter (r : Bool) (es : List (List Char)) :
    ∀ st, es.foldl (cleanStep r) st = (es.filter fun e => e ≠ []).foldl (cleanStep r) st := by
  induction es with
  | nil => intro st; rfl
  | cons e rest ih =>
    intro st
    by_cases he : e = []
    · subst he
      have : cleanStep r st [] = st := by simp [cleanStep]
      simp [List.foldl, this, ih]
    · simp [List.foldl, he, ih]

theorem foldl_cleanStep_plain (r : Bool) (xs : List (List Char)) (h : ∀ n ∈ xs, plainName n) :
    ∀ st, xs.foldl (cleanStep r) st = (st.1 ++ xs, st.2) := by
  induction xs with
  | nil => intro st; simp
  | cons x rest ih =>
    intro st
    obtain ⟨h1, h2, h3⟩ := h x (by simp)
    have hs : cleanStep r st x = (st.1 ++ [x], st.2) := by
      simp [cleanStep, h1, h2, h3]
    rw [List.foldl, hs, ih (fun n hn => h n (by simp [hn]))]
    simp

theorem foldl_cleanStep_mem (r : Bool) (es : List (List Char)) :
    ∀ st, ∀ e ∈ (es.foldl (cleanStep r) st).1, e ∈ st.1 ∨ e ∈ es := by
  induction es with
  | nil => intro st e he; exact Or.inl he
  | cons x rest ih =>
    intro st e he
    rw [List.foldl] at he
    rcases ih _ e he with h | h
    · have hx : ∀ y ∈ (cleanStep r st x).1, y ∈ st.1 ∨ y = x := by
        intro y hy
        unfold cleanStep at hy
        split at hy
        · exact Or.inl hy
        · split at hy
          · split at hy
            · exact Or.inl (List.mem_of_mem_dropLast hy)
            · split at hy
              · rcases List.mem_append.1 hy with hy | hy
                · exact Or.inl hy
                · exact Or.inr (by simpa using hy)
              · exact Or.inl hy
          · rcases List.mem_append.1 hy with hy | hy
            · exact Or.inl hy
            · exact Or.inr (by simpa using hy)
      rcases hx e h with h | h
      · exact Or.inl h
      · exact Or.inr (by simp [h])
    · exact Or.inr (by simp [h])

theorem pathClean_eq (p : String) :
    pathClean p = cleanOf (p.data.head? = some '/') (pathElems p.data) := by
  unfold pathClean cleanOf pathElems
  dsimp only
  rw [← foldl_cleanStep_filter]
  simp

theorem pathElems_not_mem (l : List Char) : ∀ e ∈ pathElems l, '/' ∉ e := by
  intro e he
  exact splitSlash_not_mem l e (List.mem_of_mem_filter he)

theorem pathElems_intercalate (ls : List (List Char)) :
    pathElems (['/'].intercalate ls) = ls.flatMap pathElems := by
  induction ls with
  | nil => simp [List.intercalate, List.intersperse, pathElems_nil]
  | cons x rest ih =>
    cases rest with
    | nil => simp [List.intercalate, List.intersperse]
    | cons y rest =>
      have e : ['/'].intercalate (x :: y :: rest) = x ++ '/' :: ['/'].intercalate (y :: rest) := by
        simp [List.intercalate, List.intersperse]
      rw [e, pathElems_append, ih]
      simp

/-- Two cleaned paths with the same leading elements and plain trailing
elements are equal only when the trailing elements are. -/
theorem cleanOf_inj (r : Bool) (a x1 x2 : List (List Char))
    (ha : ∀ e ∈ a, '/' ∉ e)
    (h1 : ∀ n ∈ x1, plainName n ∧ '/' ∉ n) (h2 : ∀ n ∈ x2, plainName n ∧ '/' ∉ n)
    (n1 : x1 ≠ []) (n2 : x2 ≠ [])
    (h : cleanOf r (a ++ x1) = cleanOf r (a ++ x2)) : x1 = x2 := by
  have key : ∀ x : List (List Char), (∀ n ∈ x, plainName n ∧ '/' ∉ n) → x ≠ [] →
      ∃ s : List (List Char), (∀ e ∈ s ++ x, '/' ∉ e) ∧ s = (a.foldl (cleanStep r) ([], 0)).1 ∧
        cleanOf r (a ++ x) = ⟨(if r then ['/'] else []) ++ ['/'].intercalate (s ++ x)⟩ := by
    intro x hx nx
    refine ⟨(a.foldl (cleanStep r) ([], 0)).1, ?_, rfl, ?_⟩
    · intro e he
      rcases List.mem_append.1 he with he | he
      · rcases foldl_cleanStep_mem r a _ e he with h0 | h0
        · cases h0
        · exact ha e h0
      · exact (hx e he).2
    · unfold cleanOf
      rw [List.foldl_append, foldl_cleanStep_plain r x (fun n hn => (hx n hn).1)]
      dsimp only
      rw [if_neg]
      intro hr
      have hi : ['/'].intercalate ((a.foldl (cleanStep r) ([], 0)).1 ++ x) = [] :=
        (List.append_eq_nil.1 hr).2
      have hsplit := intercalate_splitSlash
        (['/'].intercalate ((a.foldl (cleanStep r) ([], 0)).1 ++ x))
      have hss : splitSlash (['/'].intercalate ((a.foldl (cleanStep r) ([], 0)).1 ++ x)) =
          (a.foldl (cleanStep r) ([], 0)).1 ++ x := by
        apply splitSlash_intercalate
        · simp [nx]
        · intro e he
          rcases List.mem_append.1 he with he | he
          · rcases foldl_cleanStep_mem r a _ e he with h0 | h0
            · cases h0
            · exact ha e h0
          · exact (hx e he).2
      rw [hi] at hss
      have hx0 : ∀ n ∈ x, n = [] := by
        intro n hn
        have : n ∈ splitSlash [] := by rw [hss]; simp [hn]
        simpa [splitSlash] using this
      obtain ⟨n, hn⟩ := List.exists_mem_of_ne_nil x nx
      exact (hx n hn).1.1 (hx0 n hn)
  obtain ⟨s1, hs1, e1, c1⟩ := key x1 h1 n1
  obtain ⟨s2, hs2, e2, c2⟩ := key x2 h2 n2
  rw [c1, c2] at h
  have hd := congrArg String.data h
  simp only at hd
  have hi := List.append_cancel_left hd
  have hsp := congrArg splitSlash hi
  rw [splitSlash_intercalate _ (by simp [n1]) hs1, splitSlash_intercalate _ (by simp [n2]) hs2,
    e1, e2] at hsp
  exact List.append_cancel_left hsp

theorem dropWhile_cons_head (f : Char → Bool) :
    ∀ (l : List Char) (c : Char) (rest : List Char), l.dropWhile f = c :: rest → f c = false := by
  intro l
  induction l with
  | nil => intro c rest h; cases h
  | cons a t ih =>
    intro c rest h
    by_cases ha : f a = true
    · simp only [List.dropWhile, ha] at h
      exact ih _ _ h
    · simp only [List.dropWhile, ha] at h
      obtain ⟨rfl, _⟩ := List.cons.inj h
      simpa using ha

theorem pathSplit_append (p : String) :
    (pathSplit p).1.data ++ (pathSplit p).2.data = p.data := by
  unfold pathSplit
  simp only
  rw [← List.reverse_append, List.takeWhile_append_dropWhile, List.reverse_reverse]

theorem pathSplit_file_not_mem (p : String) : '/' ∉ (pathSplit p).2.data := by
  unfold pathSplit
  simp only [List.mem_reverse]
  intro h
  have := List.mem_takeWhile_imp h
  simp at this

theorem pathSplit_dir (p : String) :
    (pathSplit p).1.data = [] ∨ ∃ pre, (pathSplit p).1.data = pre ++ ['/'] := by
  unfold pathSplit
  simp only
  cases h : p.data.reverse.dropWhile (fun c => c ≠ '/') with
  | nil => exact Or.inl rfl
  | cons c rest =>
    right
    have hc : c = '/' := by
      have := dropWhile_cons_head (fun c => decide (c ≠ '/')) _ c rest h
      simpa using this
    exact ⟨rest.reverse, by simp [hc]⟩

theorem pathSplit_elems (p : String) :
    pathElems (pathSplit p).1.data ++ pathElems (pathSplit p).2.data = pathElems p.data := by
  have h := pathSplit_append p
  rcases pathSplit_dir p with hd | ⟨pre, hd⟩
  · rw [hd] at h ⊢
    rw [pathElems_nil, List.nil_append]
    rw [← h, List.nil_append]
  · rw [hd] at h ⊢
    rw [pathElems_append_slash, ← h, List.append_assoc, List.singleton_append, pathElems_append]

theorem pathSplit_dir_head (p : String) (h : p.data.head? = some '/') :
    (pathSplit p).1.data.head? = some '/' := by
  have ha := pathSplit_append p
  cases hd : (pathSplit p).1.data with
  | nil =>
    rw [hd, List.nil_append] at ha
    have hf := pathSplit_file_not_mem p
    rw [ha] at hf
    cases hp : p.data with
    | nil => rw [hp] at h; cases h
    | cons c cs =>
      rw [hp] at h hf
      simp only [List.head?_cons, Option.some.injEq] at h
      exact absurd (by simp [h]) hf
  | cons c cs =>
    rw [hd] at ha
    rw [← ha] at h
    simpa using h

theorem extScan_nil (rev : List Char) :
    ∀ acc, extScan rev acc = [] → '.' ∉ rev.takeWhile (fun c => c ≠ '/') := by
  induction rev with
  | nil => intro acc _; simp
  | cons c rest ih =>
    intro acc h
    by_cases h1 : c = '/'
    · simp [h1]
    · by_cases h2 : c = '.'
      · simp [extScan, h2] at h
      · simp only [extScan, h1, h2, if_false] at h
        have := ih _ h
        simp only [List.takeWhile, ne_eq, h1, not_false_eq_true, decide_True, List.mem_cons,
          not_or]
        exact ⟨fun e => h2 e.symm, this⟩

theorem ext_empty_file (p : String) (h : filepathExt p = "") : '.' ∉ (pathSplit p).2.data := by
  unfold filepathExt at h
  have h1 : extScan p.data.reverse [] = [] := congrArg String.data h
  have := extScan_nil _ _ h1
  unfold pathSplit
  simpa using this

theorem removeFirst_of_not_mem (l : List Char) (h : '.' ∉ l) :
    removeFirst ".html".data l = l := by
  induction l with
  | nil => rfl
  | cons c cs ih =>
    have hc : c ≠ '.' := fun e => h (by simp [e])
    have hc2 : ¬ '.' = c := fun e => hc e.symm
    have hd : ".html".data = ['.', 'h', 't', 'm', 'l'] := rfl
    rw [removeFirst, hd]
    rw [← hd, ih (fun m => h (by simp [m]))]
    simp [hd, List.isPrefixOf, hc2]

theorem filepathExt_html (a : List Char) :
    filepathExt ⟨a ++ ['.', 'h', 't', 'm', 'l']⟩ = ".html" := by
  unfold filepathExt
  simp [extScan]

theorem intercalate_snoc (ls : List (List Char)) (x : List Char) (h : ls ≠ []) :
    ['/'].intercalate (ls ++ [x]) = ['/'].intercalate ls ++ '/' :: x := by
  induction ls with
  | nil => exact absurd rfl h
  | cons a rest ih =>
    cases rest with
    | nil => simp [List.intercalate, List.intersperse]
    | cons b rest =>
      have e1 : ['/'].intercalate (a :: b :: rest) = a ++ '/' :: ['/'].intercalate (b :: rest) := by
        simp [List.intercalate, List.intersperse]
      have e2 : ['/'].intercalate (a :: ((b :: rest) ++ [x])) =
          a ++ '/' :: ['/'].intercalate ((b :: rest) ++ [x]) := by
        simp [List.intercalate, List.intersperse]
      rw [List.cons_append, e2, ih (by simp), e1]
      simp

theorem head?_intercalate (x : List Char) (xs : List (List Char)) (h : x ≠ []) :
    (['/'].intercalate (x :: xs)).head? = x.head? := by
  cases x with
  | nil => exact absurd rfl h
  | cons c cs => cases xs <;> simp [List.intercalate, List.intersperse]

theorem filepathJoin_eq (outDir dir : String) (more : List String)
    (hdir : dir.data.head? = some '/') :
    filepathJoin (outDir :: dir :: more) =
      cleanOf (rootedOf outDir)
        (pathElems outDir.data ++ (pathElems dir.data ++ more.flatMap fun m => pathElems m.data)) := by
  have hdne : dir ≠ "" := by
    intro e
    rw [e] at hdir
    cases hdir
  have hdd : dir.data ≠ [] := by
    intro e
    rw [e] at hdir
    cases hdir
  by_cases hD : outDir = ""
  · subst hD
    have e : filepathJoin ("" :: dir :: more) =
        pathClean ⟨['/'].intercalate ((dir :: more).map String.data)⟩ := by
      simp [filepathJoin, List.dropWhile, hdne]
    rw [e, pathClean_eq, pathElems_intercalate]
    simp only [List.map_cons, head?_intercalate _ _ hdd, hdir]
    have e0 : pathElems ("" : String).data = [] := pathElems_nil
    simp [rootedOf, e0, List.flatMap_map]
  · have hDd : outDir.data ≠ [] := by
      intro e
      exact hD (String.ext e)
    have e : filepathJoin (outDir :: dir :: more) =
        pathClean ⟨['/'].intercalate ((outDir :: dir :: more).map String.data)⟩ := by
      simp [filepathJoin, List.dropWhile, hD]
    rw [e, pathClean_eq, pathElems_intercalate]
    simp only [List.map_cons, head?_intercalate _ _ hDd]
    simp [rootedOf, hD, List.flatMap_map]

theorem cleanRooted_spec (p : String) (h : cleanRooted p = true) :
    ∃ names : List (List Char), names ≠ [] ∧ (∀ n ∈ names, plainName n ∧ '/' ∉ n) ∧
      p.data = '/' :: ['/'].intercalate names ∧ pathElems p.data = names := by
  unfold cleanRooted at h
  split at h
  · rename_i rest hp
    have hall : ∀ n ∈ splitSlash rest, plainName n := by
      intro n hn
      have := (List.all_eq_true.1 h) n hn
      simpa [plainName] using this
    refine ⟨splitSlash rest, splitSlash_ne_nil rest, ?_, ?_, ?_⟩
    · intro n hn
      exact ⟨hall n hn, splitSlash_not_mem rest n hn⟩
    · rw [hp, intercalate_splitSlash]
    · rw [hp, pathElems_slash]
      unfold pathElems
      rw [List.filter_eq_self]
      intro n hn
      simpa using (hall n hn).1
  · cases h

theorem cleanRooted_head (p : String) (h : cleanRooted p = true) :
    p.data.head? = some '/' := by
  obtain ⟨names, _, _, hp, _⟩ := cleanRooted_spec p h
  rw [hp]
  rfl

theorem saveFilename_eq (outDir p : String) (hroot : p.data.head? = some '/')
    (he : filepathExt p ≠ ".html") :
    saveFilename outDir p =
      cleanOf (rootedOf outDir) (pathElems outDir.data ++
        (pathElems p.data ++ if filepathExt p = "" then ["index.html".data] else [])) := by
  have hdir := pathSplit_dir_head p hroot
  have hel := pathSplit_elems p
  unfold saveFilename
  dsimp only
  by_cases hx : filepathExt p = ""
  · have hdot := ext_empty_file p hx
    have hfile : (pathSplit p).2 ≠ "index.html" := by
      intro e
      rw [e] at hdot
      exact hdot (by decide)
    have hrep : replaceFirstEmpty (pathSplit p).2 ".html" = (pathSplit p).2 := by
      unfold replaceFirstEmpty
      rw [removeFirst_of_not_mem _ hdot]
    rw [if_pos ⟨hfile, Or.inr hx⟩, hrep, filepathJoin_eq _ _ _ hdir, if_pos hx, ← hel]
    have hi : pathElems "index.html".data = ["index.html".data] := by decide
    simp [hi]
  · have hc : ¬ ((pathSplit p).2 ≠ "index.html" ∧ (filepathExt p = ".html" ∨ filepathExt p = "")) := by
      rintro ⟨_, h1 | h1⟩
      · exact he h1
      · exact hx h1
    rw [if_neg hc, filepathJoin_eq _ _ _ hdir, if_neg hx, ← hel]
    simp

theorem plain_index : plainName "index.html".data ∧ '/' ∉ "index.html".data := by
  unfold plainName
  decide

theorem ext_of_names_index (p : String) (names : List (List Char))
    (hp : p.data = '/' :: ['/'].intercalate (names ++ ["index.html".data])) :
    filepathExt p = ".html" := by
  have hih : "index.html".data = "index".data ++ ['.', 'h', 't', 'm', 'l'] := by decide
  have : ∃ a, p.data = a ++ ['.', 'h', 't', 'm', 'l'] := by
    by_cases hn : names = []
    · subst hn
      refine ⟨'/' :: "index".data, ?_⟩
      rw [hp]
      simp [List.intercalate, List.intersperse]
    · refine ⟨'/' :: ['/'].intercalate names ++ '/' :: "index".data, ?_⟩
      rw [hp, intercalate_snoc _ _ hn, hih]
      simp
  obtain ⟨a, ha⟩ := this
  have e : p = ⟨a ++ ['.', 'h', 't', 'm', 'l']⟩ := String.ext ha
  rw [e]
  exact filepathExt_html a

/-- Among rooted clean paths whose extension is not ".html", the path mapping of
`Generator.save` is injective. -/
theorem saveFilename_inj (outDir p1 p2 : String)
    (hc1 : cleanRooted p1 = true) (hc2 : cleanRooted p2 = true)
    (he1 : filepathExt p1 ≠ ".html") (he2 : filepathExt p2 ≠ ".html")
    (h : saveFilename outDir p1 = saveFilename outDir p2) : p1 = p2 := by
  obtain ⟨n1, hn1, hp1, hd1, hel1⟩ := cleanRooted_spec p1 hc1
  obtain ⟨n2, hn2, hp2, hd2, hel2⟩ := cleanRooted_spec p2 hc2
  rw [saveFilename_eq outDir p1 (cleanRooted_head p1 hc1) he1,
    saveFilename_eq outDir p2 (cleanRooted_head p2 hc2) he2, hel1, hel2] at h
  have hplain : ∀ (ns : List (List Char)) (b : Prop) [Decidable b],
      (∀ n ∈ ns, plainName n ∧ '/' ∉ n) →
      ∀ n ∈ ns ++ (if b then ["index.html".data] else []), plainName n ∧ '/' ∉ n := by
    intro ns b _ hns n hn
    rcases List.mem_append.1 hn with hn | hn
    · exact hns n hn
    · split at hn
      · rw [List.mem_singleton.1 hn]
        exact plain_index
      · cases hn
  have hx := cleanOf_inj (rootedOf outDir) (pathElems outDir.data) _ _
    (pathElems_not_mem _) (hplain n1 _ hp1) (hplain n2 _ hp2) (by simp [hn1]) (by simp [hn2]) h
  have hnames : n1 = n2 := by
    by_cases x1 : filepathExt p1 = "" <;> by_cases x2 : filepathExt p2 = ""
    · rw [if_pos x1, if_pos x2] at hx
      exact List.append_cancel_right hx
    · rw [if_pos x1, if_neg x2, List.append_nil] at hx
      rw [← hx] at hd2
      exact absurd (ext_of_names_index p2 n1 hd2) he2
    · rw [if_neg x1, if_pos x2, List.append_nil] at hx
      rw [hx] at hd1
      exact absurd (ext_of_names_index p1 n2 hd1) he1
    · rw [if_neg x1, if_neg x2, List.append_nil, List.append_nil] at hx
      exact hx
  apply String.ext
  rw [hd1, hd2, hnames]

theorem filterLoop_nodup (v : List String) (xs : List URL) :
    ((filterLoop v [] xs).2.map URL.String).Nodup ∧
      ∀ w ∈ (filterLoop v [] xs).2, w.String ∉ v ∧ w.String ∈ (filterLoop v [] xs).1 := by
  induction xs generalizing v with
  | nil => simp [filterLoop]
  | cons x rest ih =>
    by_cases h : fingerprint x ∈ v
    · rw [filterLoop_cons_seen v x rest h]
      exact ih v
    · rw [filterLoop_cons_new v x rest h]
      obtain ⟨h1, h2⟩ := ih (fingerprint x :: v)
      refine ⟨?_, ?_⟩
      · simp only [List.map_cons, List.nodup_cons]
        refine ⟨?_, h1⟩
        intro hm
        obtain ⟨w, hw, e⟩ := List.mem_map.1 hm
        exact (h2 w hw).1 (by rw [e]; exact List.mem_cons_self _ _)
      · intro w hw
        rcases List.mem_cons.1 hw with e | hw
        · rw [e]
          exact ⟨h, (filterLoop_keys _ _ _).2 (Or.inl (List.mem_cons_self _ _))⟩
        · exact ⟨fun m => (h2 w hw).1 (List.mem_cons_of_mem _ m), (h2 w hw).2⟩

theorem filterLoop_keys_mono (v : List String) (xs : List URL) (s : String) (h : s ∈ v) :
    s ∈ (filterLoop v [] xs).1 :=
  (filterLoop_keys v xs s).2 (Or.inl h)

/-- The children accepted through `Filter` have pairwise distinct string forms,
all of them in the visited set: the invariant of one transition. -/
theorem step_childKeys (c : Crawler) (lib : Lib) (server : URL → Exchange)
    (s s1 : CrawlState) (a : Action) (hs : step c lib server s a = some s1)
    (hinv : s.childKeys.Nodup ∧ ∀ k ∈ s.childKeys, k ∈ s.duplicates.keys) :
    s1.childKeys.Nodup ∧ ∀ k ∈ s1.childKeys, k ∈ s1.duplicates.keys := by
  cases a with
  | queue u =>
    simp only [step, Option.some.injEq] at hs
    subst hs
    simpa [CrawlState.childKeys, CrawlState.Queue, List.filter_append] using hinv
  | receive i =>
    simp only [step] at hs
    split at hs
    · split at hs
      · cases hs
      · simp only [Option.some.injEq] at hs
        subst hs
        exact hinv
    · cases hs
  | process i =>
    simp only [step] at hs
    split at hs
    · cases hs
    · rename_i t _
      split at hs
      · simp only [Option.some.injEq] at hs
        subst hs
        exact hinv
      · rename_i urls r _
        simp only [Option.some.injEq] at hs
        subst hs
        have hk : (List.filter (fun t : Target => t.Parent.isSome)
            (List.map (fun u => (⟨some t.URL, u⟩ : Target)) (s.duplicates.Filter urls).2)).map
              (fun t => t.URL.String) = (s.duplicates.Filter urls).2.map URL.String := by
          induction (s.duplicates.Filter urls).2 with
          | nil => rfl
          | cons w ws ihw => simp [List.filter, ihw]
        obtain ⟨n1, n2⟩ := filterLoop_nodup s.duplicates.keys urls
        simp only [CrawlState.childKeys, List.filter_append, List.map_append, hk]
        rw [Filter_snd, Filter_fst_keys]
        refine ⟨?_, ?_⟩
        · rw [List.nodup_append]
          refine ⟨hinv.1, n1, ?_⟩
          intro k hk1 hk2
          obtain ⟨w, hw, e⟩ := List.mem_map.1 hk2
          exact (n2 w hw).1 (e ▸ hinv.2 k hk1)
        · intro k hk1
          rcases List.mem_append.1 hk1 with hk1 | hk1
          · exact filterLoop_keys_mono _ _ _ (hinv.2 k hk1)
          · obtain ⟨w, hw, e⟩ := List.mem_map.1 hk1
            exact e ▸ (n2 w hw).2
  | emit i =>
    simp only [step] at hs
    split at hs
    · cases hs
    · simp only [Option.some.injEq] at hs
      subst hs
      exact hinv
  | supervise =>
    simp only [step] at hs
    split at hs
    · simp only [Option.some.injEq] at hs
      subst hs
      exact hinv
    · cases hs

/-- In every state reached from `Start`, the Targets that were accepted through
`Filter` have pairwise distinct string forms; duplicates among the accepted
Targets involve a Target placed by `Queue`. -/
theorem run_childKeys (c : Crawler) (lib : Lib) (server : URL → Exchange)
    (acts : List Action) (s : CrawlState)
    (h : run c lib server c.Start acts = some s) : s.childKeys.Nodup := by
  have gen : ∀ (acts : List Action) (s0 s : CrawlState),
      (s0.childKeys.Nodup ∧ ∀ k ∈ s0.childKeys, k ∈ s0.duplicates.keys) →
      run c lib server s0 acts = some s →
      (s.childKeys.Nodup ∧ ∀ k ∈ s.childKeys, k ∈ s.duplicates.keys) := by
    intro acts
    induction acts with
    | nil =>
      intro s0 s h0 hr
      simp only [run, Option.some.injEq] at hr
      exact hr ▸ h0
    | cons a rest ih =>
      intro s0 s h0 hr
      simp only [run] at hr
      split at hr
      · cases hr
      · rename_i s1 hs1
        exact ih s1 s (step_childKeys c lib server s0 s1 a hs1 h0) hr
  refine (gen acts c.Start s ?_ h).1
  simp [Crawler.Start, CrawlState.Queue, CrawlState.childKeys]

theorem removeFirst_spec (pat l : List Char) :
    (removeFirst pat l = l ∧ ∀ a b, l ≠ a ++ pat ++ b) ∨
      ∃ a b, l = a ++ pat ++ b ∧ removeFirst pat l = a ++ b ∧
        ∀ a1 b1, l = a1 ++ pat ++ b1 → a.length ≤ a1.length := by
  induction l with
  | nil =>
    cases pat with
    | nil =>
      right
      exact ⟨[], [], rfl, rfl, fun _ _ _ => Nat.zero_le _⟩
    | cons p ps =>
      left
      refine ⟨rfl, ?_⟩
      intro a b h
      have := congrArg List.length h
      simp at this
      omega
  | cons c cs ih =>
    by_cases hp : pat.isPrefixOf (c :: cs) = true
    · right
      obtain ⟨t, ht⟩ := List.isPrefixOf_iff_prefix.1 hp
      refine ⟨[], t, by simp [ht], ?_, fun _ _ _ => Nat.zero_le _⟩
      rw [removeFirst, if_pos hp, ← ht]
      simp
    · have hnp : ∀ b, c :: cs ≠ pat ++ b := by
        intro b hb
        exact hp (List.isPrefixOf_iff_prefix.2 ⟨b, hb.symm⟩)
      rw [removeFirst, if_neg hp]
      rcases ih with ⟨h1, h2⟩ | ⟨a, b, h1, h2, h3⟩
      · left
        refine ⟨by rw [h1], ?_⟩
        intro a b h
        cases a with
        | nil => exact hnp b (by simpa using h)
        | cons x a =>
          simp only [List.cons_append, List.cons.injEq] at h
          exact h2 a b h.2
      · right
        refine ⟨c :: a, b, by simp [h1], by simp [h2], ?_⟩
        intro a1 b1 h
        cases a1 with
        | nil => exact absurd (by simpa using h) (hnp b1)
        | cons x a1 =>
          simp only [List.cons_append, List.cons.injEq] at h
          simpa using h3 a1 b1 h.2

/-- Where every occurrence of ".html" in the file name is its suffix, the
destination of `save` is the one of the specification. -/
theorem saveFilename_eq_spec (outDir p : String)
    (h : ∀ a b, (pathSplit p).2.data = a ++ ".html".data ++ b → b = []) :
    saveFilename outDir p = specFilename outDir p := by
  have key : replaceFirstEmpty (pathSplit p).2 ".html" = trimSuffix (pathSplit p).2 ".html" := by
    unfold replaceFirstEmpty trimSuffix hasSuffix
    rcases removeFirst_spec ".html".data (pathSplit p).2.data with ⟨h1, h2⟩ | ⟨a, b, h1, h2, _⟩
    · have hns : ¬ (".html".data.reverse.isPrefixOf (pathSplit p).2.data.reverse = true) := by
        intro hpre
        obtain ⟨t, ht⟩ := List.isPrefixOf_iff_prefix.1 hpre
        have := congrArg List.reverse ht
        simp only [List.reverse_append, List.reverse_reverse] at this
        exact h2 t.reverse [] (by simp [← this])
      rw [if_neg hns, h1]
    · have hb := h a b h1
      subst hb
      have hpre : ".html".data.reverse.isPrefixOf (pathSplit p).2.data.reverse = true := by
        rw [List.isPrefixOf_iff_prefix, h1]
        exact ⟨a.reverse, by simp⟩
      rw [if_pos hpre, h2]
      apply String.ext
      simp [h1]
  unfold saveFilename specFilename
  dsimp only
  rw [key]

/-! ## Lemmas on the resolution of references and on the pending counter -/

theorem resolveReference_query (setPath : String → String × String) (u r : URL)
    (hu : u.RawQuery = "" ∧ u.Fragment = "") (hr : r.RawQuery = "" ∧ r.Fragment = "") :
    (resolveReference setPath u r).RawQuery = "" ∧
      (resolveReference setPath u r).Fragment = "" := by
  unfold resolveReference
  dsimp only
  split_ifs <;> simp [hu.1, hu.2, hr.1, hr.2]

/-- With `ResolveReference` as in `net/url`, every URL that `parseLinks` returns
for a page whose URL has neither query nor fragment has neither. -/
theorem parseLinks_no_query (setPath : String → String × String) (lib : Lib)
    (doc : Document) (root u x : URL) (hl : lib.ResolveReference = resolveReference setPath)
    (hu : u.RawQuery = "" ∧ u.Fragment = "") (hx : x ∈ parseLinks lib doc root u) :
    x.RawQuery = "" ∧ x.Fragment = "" := by
  obtain ⟨s, _, h⟩ := List.mem_filterMap.1 hx
  dsimp only [linkOf] at h
  split at h
  · cases h
  · split at h
    · cases h
    · split at h
      · cases h
        rw [hl]
        exact resolveReference_query setPath u _ hu ⟨rfl, rfl⟩
      · cases h

theorem flatten_set_perm (l : List (List Target)) :
    ∀ (i : Nat) (t : Target) (rest : List Target), l.get? i = some (t :: rest) →
      l.flatten.Perm (t :: (l.set i rest).flatten) := by
  induction l with
  | nil => intro i t rest h; cases h
  | cons a l ih =>
    intro i t rest h
    cases i with
    | zero =>
      simp only [List.get?_cons_zero, Option.some.injEq] at h
      subst h
      simp
    | succ i =>
      simp only [List.get?_cons_succ] at h
      have := ih i t rest h
      simp only [List.set_cons_succ, List.flatten_cons]
      exact (List.Perm.append_left a this).trans List.perm_middle

theorem eraseIdx_perm {α : Type} (l : List α) :
    ∀ (i : Nat) (t : α), l.get? i = some t → l.Perm (t :: l.eraseIdx i) := by
  induction l with
  | nil => intro i t h; cases h
  | cons a l ih =>
    intro i t h
    cases i with
    | zero =>
      simp only [List.get?_cons_zero, Option.some.injEq] at h
      subst h
      simp
    | succ i =>
      simp only [List.get?_cons_succ] at h
      have := ih i t h
      simp only [List.eraseIdx_cons_succ]
      exact (List.Perm.cons a this).trans (List.Perm.swap t a _)

theorem extracted_target (r : Resource) (body : Body) (x : Except String (List URL)) :
    (extracted r body x).2.1.toTarget = r.toTarget := by
  cases x <;> rfl

theorem dispatch_target (c : Crawler) (lib : Lib) (t : Target) (r : Resource) (res : Response) :
    (c.dispatch lib t r res).2.1.toTarget = r.toTarget := by
  unfold Crawler.dispatch
  dsimp only
  split
  · exact extracted_target _ _ _
  · split
    · exact extracted_target _ _ _
    · rfl

theorem visit_target (c : Crawler) (lib : Lib) (t : Target) (x : Exchange) :
    (c.visit lib t x).2.1.toTarget = t := by
  unfold Crawler.visit
  dsimp only
  split
  · rfl
  · rfl
  · split
    · rfl
    · split
      · rfl
      · exact dispatch_target _ _ _ _ _

theorem step_counted (c : Crawler) (lib : Lib) (server : URL → Exchange)
    (s s1 : CrawlState) (a : Action) (hs : step c lib server s a = some s1)
    (hinv : Counted s) : Counted s1 := by
  obtain ⟨hp, hperm⟩ := hinv
  cases a with
  | queue u =>
    simp only [step, Option.some.injEq] at hs
    subst hs
    refine ⟨?_, ?_⟩
    · simp only [CrawlState.Queue, CrawlState.unemitted, List.flatten_append, List.length_append, List.length_nil,
        List.flatten_cons, List.flatten_nil, List.append_nil, List.length_singleton,
        List.length_map] at hp ⊢
      omega
    · rw [List.perm_iff_count] at hperm ⊢
      intro x
      have := hperm x
      simp only [CrawlState.Queue, CrawlState.unemitted, CrawlState.emitted, List.flatten_append,
        List.count_append, List.flatten_cons, List.flatten_nil, List.append_nil] at this ⊢
      omega
  | receive i =>
    simp only [step] at hs
    split at hs
    · rename_i t rest hget
      split at hs
      · cases hs
      · simp only [Option.some.injEq] at hs
        subst hs
        have hf := flatten_set_perm s.senders i t rest hget
        refine ⟨?_, ?_⟩
        · have hl := hf.length_eq
          simp only [CrawlState.unemitted, List.length_append, List.length_nil, List.length_cons,
            List.length_singleton, List.length_map] at hp hl ⊢
          omega
        · rw [List.perm_iff_count] at hperm hf ⊢
          intro x
          have h1 := hperm x
          have h2 := hf x
          simp only [CrawlState.unemitted, CrawlState.emitted, List.count_append,
            List.count_cons, List.count_nil] at h1 h2 ⊢
          omega
    · cases hs
  | process i =>
    simp only [step] at hs
    split at hs
    · cases hs
    · rename_i t hget
      have hv := eraseIdx_perm s.visiting i t hget
      split at hs
      · rename_i urls r e heq
        have ht : r.toTarget = t := by
          have := visit_target c lib t (server t.URL)
          rw [heq] at this
          exact this
        simp only [Option.some.injEq] at hs
        subst hs
        refine ⟨?_, ?_⟩
        · have hl := hv.length_eq
          simp only [CrawlState.unemitted, List.length_append, List.length_nil, List.length_cons,
            List.length_singleton, List.length_map] at hp hl ⊢
          omega
        · rw [List.perm_iff_count] at hperm hv ⊢
          intro x
          have h1 := hperm x
          have h2 := hv x
          simp only [CrawlState.unemitted, CrawlState.emitted, List.count_append,
            List.count_cons, List.count_nil, List.map_append, List.map_cons, List.map_nil,
            ht] at h1 h2 ⊢
          omega
      · rename_i urls r heq
        have ht : r.toTarget = t := by
          have := visit_target c lib t (server t.URL)
          rw [heq] at this
          exact this
        simp only [Option.some.injEq] at hs
        subst hs
        refine ⟨?_, ?_⟩
        · have hl := hv.length_eq
          simp only [CrawlState.unemitted, List.length_append, List.length_nil, List.length_cons,
            List.length_singleton, List.length_map, List.flatten_append, List.flatten_cons,
            List.flatten_nil, List.append_nil] at hp hl ⊢
          omega
        · rw [List.perm_iff_count] at hperm hv ⊢
          intro x
          have h1 := hperm x
          have h2 := hv x
          simp only [CrawlState.unemitted, CrawlState.emitted, List.count_append,
            List.count_cons, List.count_nil, List.map_append, List.map_cons, List.map_nil,
            List.flatten_append, List.flatten_cons, List.flatten_nil, List.append_nil,
            ht] at h1 h2 ⊢
          omega
  | emit i =>
    simp only [step] at hs
    split at hs
    · cases hs
    · rename_i r exits hget
      have he := (eraseIdx_perm s.emitting i (r, exits) hget).map fun e => e.1.toTarget
      simp only [Option.some.injEq] at hs
      subst hs
      refine ⟨?_, ?_⟩
      · have hl := he.length_eq
        simp only [CrawlState.unemitted, List.length_append, List.length_nil, List.length_cons,
          List.length_map, List.map_cons] at hp hl ⊢
        omega
      · rw [List.perm_iff_count] at hperm he ⊢
        intro x
        have h1 := hperm x
        have h2 := he x
        simp only [CrawlState.unemitted, CrawlState.emitted, List.count_append,
          List.count_cons, List.count_nil, List.map_append, List.map_cons, List.map_nil]
          at h1 h2 ⊢
        omega
  | supervise =>
    simp only [step] at hs
    split at hs
    · simp only [Option.some.injEq] at hs
      subst hs
      exact ⟨hp, hperm⟩
    · cases hs

theorem start_counted (c : Crawler) : Counted c.Start := by
  refine ⟨?_, ?_⟩
  · simp [Crawler.Start, CrawlState.Queue, CrawlState.unemitted]
  · simp [Crawler.Start, CrawlState.Queue, CrawlState.unemitted, CrawlState.emitted]

theorem run_counted (c : Crawler) (lib : Lib) (server : URL → Exchange) :
    ∀ (acts : List Action) (s0 s : CrawlState), Counted s0 →
      run c lib server s0 acts = some s → Counted s := by
  intro acts
  induction acts with
  | nil =>
    intro s0 s h0 hr
    simp only [run, Option.some.injEq] at hr
    exact hr ▸ h0
  | cons a rest ih =>
    intro s0 s h0 hr
    simp only [run] at hr
    split at hr
    · cases hr
    · rename_i s1 hs1
      exact ih s1 s (step_counted c lib server s0 s1 a hs1 h0) hr

/-! ## The checked properties -/

/-- C1: the seed queued by `Start` never enters the visited set, so a page that
links back to the seed has that link accepted by `Filter`. On the one-page
site whose page links to "/", seeded with "http://h/", the Targets accepted
after the seed has been processed are the seed and its normalized copy, with
the same fingerprint "http://h"; the run goes on to fetch both and closes
`done` with two resources emitted. -/
theorem crawl_accepts_seed_twice :
    (run homeCrawler homeLib homeServer homeCrawler.Start
        [Action.receive 0, Action.process 0]).map CrawlState.acceptedKeys
      = some ["http://h", "http://h"] ∧
    (run homeCrawler homeLib homeServer homeCrawler.Start
        [Action.receive 0, Action.process 0, Action.emit 0, Action.receive 1,
         Action.process 0, Action.emit 0, Action.supervise]).map
        (fun s => (s.resources.map fun r => (r.URL.String, r.StatusCode, r.Error), s.done))
      = some ([("http://h/", 200, none), ("http://h", 200, none)], true) := by
  decide

/-- C2, as stated, fails: from the zero value, `Filter` of the batch "/x", "/x/"
returns one URL, while both inputs have a normalized form that is not in the
visited set at entry. -/
theorem filter_entry_subsequence_fails :
    (Deduplicator.zero.Filter [mkURL "http" "h" "/x", mkURL "http" "h" "/x/"]).2
      ≠ novelAtEntry Deduplicator.zero.keys [mkURL "http" "h" "/x", mkURL "http" "h" "/x/"] := by
  decide

/-- C2, amended: `Filter` returns, in input order, the normalized copy of each
input whose fingerprint is neither in the visited set at entry nor the
fingerprint of an earlier input of the same list; the result is a
subsequence of the normalized inputs, and after the call the visited set
holds exactly what it held before and the fingerprint of every input. -/
theorem filter_first_novel (d : Deduplicator) (xs : List URL) :
    (d.Filter xs).2 = firstNovel d.keys xs ∧
    ((d.Filter xs).2).Sublist (xs.map normalize) ∧
    ∀ s, s ∈ (d.Filter xs).1.keys ↔ s ∈ d.keys ∨ s ∈ xs.map fingerprint := by
  refine ⟨?_, ?_, ?_⟩
  · rw [Filter_snd, filterLoop_out]
  · rw [Filter_snd]
    exact filterLoop_sublist _ _
  · intro s
    rw [Filter_fst_keys, filterLoop_keys]

/-- C3: for every deduplicator state, the zero value included, filtering the
list returned by `Filter` a second time returns the empty list, and a URL
whose fingerprint is not in the visited set is returned by a later call,
alone or in a list. -/
theorem filter_twice_empty (d : Deduplicator) (xs : List URL) :
    ((d.Filter xs).1.Filter (d.Filter xs).2).2 = [] ∧
    (∀ u, fingerprint u ∉ (d.Filter xs).1.keys →
      ((d.Filter xs).1.Filter [u]).2 = [normalize u]) ∧
    (∀ ys u, u ∈ ys → fingerprint u ∉ (d.Filter xs).1.keys →
      ∃ w ∈ ((d.Filter xs).1.Filter ys).2, w.String = fingerprint u) := by
  refine ⟨?_, ?_, ?_⟩
  · apply Filter_all_seen
    intro w hw
    rw [Filter_snd, filterLoop_out] at hw
    obtain ⟨x, hx, e, _⟩ := firstNovel_normal _ _ w hw
    rw [Filter_fst_keys, filterLoop_keys, e, fingerprint_normalize]
    exact Or.inr (List.mem_map_of_mem _ hx)
  · intro u hu
    rw [Filter_snd, filterLoop_cons_new _ u [] hu]
    rfl
  · intro ys u hmem hu
    rw [Filter_snd]
    exact filterLoop_covers _ ys u hmem hu

/-- C3 on the URLs of `TestDeduplicator_Filter`: after the three URLs have been
filtered, "https://facebook.com" is still returned, alone and in a list. -/
theorem filter_twice_empty_witness :
    fingerprint (mkURL "https" "facebook.com" "") ∉
      (Deduplicator.zero.Filter [mkURL "https" "apex.sh" "", mkURL "https" "netflix.com" "",
        mkURL "https" "youtube.com" ""]).1.keys ∧
    ((Deduplicator.zero.Filter [mkURL "https" "apex.sh" "", mkURL "https" "netflix.com" "",
        mkURL "https" "youtube.com" ""]).1.Filter [mkURL "https" "facebook.com" ""]).2
      = [normalize (mkURL "https" "facebook.com" "")] ∧
    mkURL "https" "facebook.com" "" ∈
      [mkURL "https" "apex.sh" "", mkURL "https" "facebook.com" ""] ∧
    ∃ w ∈ ((Deduplicator.zero.Filter [mkURL "https" "apex.sh" "",
        mkURL "https" "netflix.com" "", mkURL "https" "youtube.com" ""]).1.Filter
          [mkURL "https" "apex.sh" "", mkURL "https" "facebook.com" ""]).2,
      w.String = fingerprint (mkURL "https" "facebook.com" "") :=
  ⟨by decide,
   (filter_twice_empty Deduplicator.zero [mkURL "https" "apex.sh" "",
      mkURL "https" "netflix.com" "", mkURL "https" "youtube.com" ""]).2.1
      (mkURL "https" "facebook.com" "") (by decide),
   by decide,
   (filter_twice_empty Deduplicator.zero [mkURL "https" "apex.sh" "",
      mkURL "https" "netflix.com" "", mkURL "https" "youtube.com" ""]).2.2
      [mkURL "https" "apex.sh" "", mkURL "https" "facebook.com" ""]
      (mkURL "https" "facebook.com" "") (by decide) (by decide)⟩

/-- C4: `follow(root, u)` is true if and only if the scheme of `u` is "http" or
"https", its host is the host of `root`, and its path has the path of
`root` as a prefix. -/
theorem follow_iff (root u : URL) :
    follow root u = true ↔
      (u.Scheme = "http" ∨ u.Scheme = "https") ∧ u.Host = root.Host ∧
        ∃ t : String, u.Path = root.Path ++ t :=
  follow_eq_true_iff root u

/-- C5, as stated, fails for the extra pages: with the seed "http://h/blog" and
the configured page "/404.html", `queuePages` queues "http://h/404.html",
whose path does not start with the seed's path. -/
theorem queuePages_outside_seed_path :
    queuePages ["/404.html"] (mkURL "http" "h" "/blog") = [mkURL "http" "h" "/404.html"] ∧
    follow (mkURL "http" "h" "/blog") (mkURL "http" "h" "/404.html") = false := by
  decide

/-- C5, amended: every URL returned by `parseLinks` and every URL returned by
`parseImports` has scheme http or https, the host of the seed and a path that
starts with the seed's path; a page queued by `queuePages` is the seed URL
with its path replaced by the configured page, whatever that page is. -/
theorem extracted_urls_followed (lib : Lib) (root u : URL) :
    (∀ doc x, x ∈ parseLinks lib doc root u → Followed root x) ∧
    (∀ b urls x, parseImports lib b root u = Except.ok urls → x ∈ urls → Followed root x) ∧
    (∀ pages, queuePages pages root = pages.map fun p => { root with Path := p }) := by
  refine ⟨?_, ?_, ?_⟩
  · intro doc x hx
    obtain ⟨s, _, hs⟩ := List.mem_filterMap.1 hx
    exact (follow_eq_true_iff root x).1 (linkOf_follow lib root u s x hs)
  · intro b urls x h hx
    exact (follow_eq_true_iff root x).1
      (importsLoop_follow lib root u _ [] urls (by simp) h x hx)
  · intro pages
    rfl

/-- C5 on the one-page site: the link to "/" of its page is returned and
followed, and so is the import of "/" by a style sheet. -/
theorem extracted_urls_followed_witness :
    (mkURL "http" "h" "/" ∈
      parseLinks homeLib [⟨some "/", none⟩] (mkURL "http" "h" "/") (mkURL "http" "h" "/") ∧
     Followed (mkURL "http" "h" "/") (mkURL "http" "h" "/")) ∧
    (parseImports { homeLib with importCaptures := fun _ => ["/"] } "@import \"/\""
        (mkURL "http" "h" "/") (mkURL "http" "h" "/s.css") = Except.ok [mkURL "http" "h" "/"] ∧
     mkURL "http" "h" "/" ∈ [mkURL "http" "h" "/"] ∧
     Followed (mkURL "http" "h" "/") (mkURL "http" "h" "/")) :=
  ⟨⟨by decide,
    (extracted_urls_followed homeLib (mkURL "http" "h" "/") (mkURL "http" "h" "/")).1
      [⟨some "/", none⟩] (mkURL "http" "h" "/") (by decide)⟩,
   ⟨rfl, by decide,
    (extracted_urls_followed { homeLib with importCaptures := fun _ => ["/"] }
      (mkURL "http" "h" "/") (mkURL "http" "h" "/s.css")).2.1
      "@import \"/\"" [mkURL "http" "h" "/"] (mkURL "http" "h" "/") rfl (by decide)⟩⟩

/-- C8, as stated, fails: `normalize` of "http://h/" returns a URL with the
empty path, and the string form changes from "http://h/" to "http://h". -/
theorem normalize_root_changes :
    (normalize (mkURL "http" "h" "/")).Path ≠ (mkURL "http" "h" "/").Path ∧
    (mkURL "http" "h" "/").String = "http://h/" ∧
    fingerprint (mkURL "http" "h" "/") = "http://h" := by
  decide

/-- C8, amended: `normalize` strips every trailing "/" of the path, the root's
included: the path of the result is `strings.TrimRight(path, "/")`, a URL whose
path is "/" gets the empty path, and a URL whose path is empty is returned
unchanged. -/
theorem normalize_strips_all (u : URL) :
    (normalize u).Path = trimRight u.Path "/" ∧
    (u.Path = "/" → (normalize u).Path = "") ∧
    (u.Path = "" → normalize u = u) := by
  refine ⟨?_, ?_, ?_⟩
  · rw [normalize_eq]
  · intro h
    rw [normalize_eq, h]
    rfl
  · intro h
    simp [normalize, h, hasSuffix]

/-- C8 on "http://h/" and "http://h". -/
theorem normalize_strips_all_witness :
    (mkURL "http" "h" "/").Path = "/" ∧ (normalize (mkURL "http" "h" "/")).Path = "" ∧
    (mkURL "http" "h" "").Path = "" ∧ normalize (mkURL "http" "h" "") = mkURL "http" "h" "" :=
  ⟨rfl, (normalize_strips_all (mkURL "http" "h" "/")).2.1 rfl,
   rfl, (normalize_strips_all (mkURL "http" "h" "")).2.2 rfl⟩

/-- C9: `normalize` is idempotent and changes no component other than the path;
for every path `x` the URLs with paths `x` and `x` followed by "/" have the same
fingerprint; and `Filter` returns exactly one URL for the batch made of the
first three times and the second twice, when that fingerprint has not been
seen: from the zero value the batch "/a", "/a", "/a", "/a/", "/a/" gives "/a". -/
theorem normalize_idempotent_collapses (u : URL) (x : String) (d : Deduplicator) :
    normalize (normalize u) = normalize u ∧
    normalize u = { u with Path := (normalize u).Path } ∧
    fingerprint { u with Path := x ++ "/" } = fingerprint { u with Path := x } ∧
    (fingerprint { u with Path := x } ∉ d.keys →
      (d.Filter [{ u with Path := x }, { u with Path := x }, { u with Path := x },
        { u with Path := x ++ "/" }, { u with Path := x ++ "/" }]).2
        = [normalize { u with Path := x }]) ∧
    (Deduplicator.zero.Filter [{ u with Path := "/a" }, { u with Path := "/a" },
        { u with Path := "/a" }, { u with Path := "/a/" }, { u with Path := "/a/" }]).2
      = [{ u with Path := "/a" }] := by
  have hfp : fingerprint { u with Path := x ++ "/" } = fingerprint { u with Path := x } := by
    unfold fingerprint
    rw [normalize_eq, normalize_eq { u with Path := x }]
    simp only [trimRight_append_slash]
  have hgen : ∀ (y : String) (e : Deduplicator), fingerprint { u with Path := y } ∉ e.keys →
      (e.Filter [{ u with Path := y }, { u with Path := y }, { u with Path := y },
        { u with Path := y ++ "/" }, { u with Path := y ++ "/" }]).2
        = [normalize { u with Path := y }] := by
    intro y e h
    have hy : fingerprint { u with Path := y ++ "/" } = fingerprint { u with Path := y } := by
      unfold fingerprint
      rw [normalize_eq, normalize_eq { u with Path := y }]
      simp only [trimRight_append_slash]
    rw [Filter_snd, filterLoop_cons_new _ _ _ h]
    rw [filterLoop_all_seen]
    intro z hz
    simp only [List.mem_cons, List.mem_singleton, List.not_mem_nil, or_false] at hz
    rcases hz with hz | hz | hz | hz <;> rw [hz] <;> simp [hy]
  refine ⟨normalize_idem u, ?_, hfp, hgen x d, ?_⟩
  · rw [normalize_eq]
  · have h := hgen "/a" Deduplicator.zero (by simp [Deduplicator.keys, Deduplicator.zero])
    have e1 : ("/a" : String) ++ "/" = "/a/" := by decide
    have e2 : normalize { u with Path := "/a" } = { u with Path := "/a" } := by
      simp [normalize, hasSuffix]
    rw [e1, e2] at h
    exact h

/-- C9 on "http://h/a" and "http://h/a/" from the zero value. -/
theorem normalize_idempotent_collapses_witness :
    fingerprint { mkURL "http" "h" "" with Path := "/a" } ∉ Deduplicator.zero.keys ∧
    (Deduplicator.zero.Filter [{ mkURL "http" "h" "" with Path := "/a" },
        { mkURL "http" "h" "" with Path := "/a" }, { mkURL "http" "h" "" with Path := "/a" },
        { mkURL "http" "h" "" with Path := "/a" ++ "/" },
        { mkURL "http" "h" "" with Path := "/a" ++ "/" }]).2
      = [normalize { mkURL "http" "h" "" with Path := "/a" }] :=
  ⟨by decide,
   (normalize_idempotent_collapses (mkURL "http" "h" "") "/a" Deduplicator.zero).2.2.2.1
      (by decide)⟩

/-- C10: on a completed response with status code `s`, `visit` records `s` on the
resource; when `s >= 300` and not (`Allow404` and `s = 404`) it returns, with
no extraction, the error "<status> response"; when `Allow404` is set and
`s = 404` it returns no children and no error, whatever the extension; and in
the remaining case, `s < 300`, its result is that of the extension dispatch. -/
theorem visit_status (c : Crawler) (lib : Lib) (t : Target) (res : Response) :
    (c.visit lib t (Exchange.response res)).2.1.StatusCode = res.StatusCode ∧
    (res.StatusCode ≥ 300 ∧ ¬ (c.Allow404 = true ∧ res.StatusCode = 404) →
      c.visit lib t (Exchange.response res) =
        ([], { toTarget := t, StatusCode := res.StatusCode, Body := some res.Body,
               Error := none }, some (res.Status ++ " response"))) ∧
    (c.Allow404 = true ∧ res.StatusCode = 404 →
      c.visit lib t (Exchange.response res) =
        ([], { toTarget := t, StatusCode := res.StatusCode, Body := some res.Body,
               Error := none }, none)) ∧
    (res.StatusCode < 300 →
      c.visit lib t (Exchange.response res) =
        c.dispatch lib t { toTarget := t, StatusCode := res.StatusCode, Body := some res.Body,
                           Error := none } res) := by
  refine ⟨?_, ?_, ?_, ?_⟩
  · unfold Crawler.visit
    dsimp only
    split
    · rfl
    · split
      · rfl
      · exact dispatch_status _ _ _ _ _
  · rintro ⟨h1, h2⟩
    unfold Crawler.visit
    dsimp only
    rw [if_neg h2, if_pos h1]
  · intro h
    unfold Crawler.visit
    dsimp only
    rw [if_pos h]
  · intro h
    have h1 : ¬ (c.Allow404 = true ∧ res.StatusCode = 404) := by
      rintro ⟨_, e⟩
      omega
    have h2 : ¬ res.StatusCode ≥ 300 := by omega
    unfold Crawler.visit
    dsimp only
    rw [if_neg h1, if_neg h2]

/-- C10 on a 404 for "http://h/missing.css", an error without `Allow404` and none
with it, and on a 200 for "http://h/", which goes to the extension dispatch. -/
theorem visit_status_witness :
    (homeCrawler.visit homeLib ⟨none, mkURL "http" "h" "/missing.css"⟩
        (Exchange.response ⟨404, "404 Not Found", ⟨"gone", none⟩⟩)
      = ([], { toTarget := ⟨none, mkURL "http" "h" "/missing.css"⟩, StatusCode := 404,
               Body := some ⟨"gone", none⟩, Error := none },
          some ("404 Not Found" ++ " response"))) ∧
    ({ homeCrawler with Allow404 := true }.visit homeLib ⟨none, mkURL "http" "h" "/missing.css"⟩
        (Exchange.response ⟨404, "404 Not Found", ⟨"gone", none⟩⟩)
      = ([], { toTarget := ⟨none, mkURL "http" "h" "/missing.css"⟩, StatusCode := 404,
               Body := some ⟨"gone", none⟩, Error := none }, none)) ∧
    (homeCrawler.visit homeLib ⟨none, mkURL "http" "h" "/"⟩
        (Exchange.response ⟨200, "200 OK", ⟨"", none⟩⟩)
      = homeCrawler.dispatch homeLib ⟨none, mkURL "http" "h" "/"⟩
          { toTarget := ⟨none, mkURL "http" "h" "/"⟩, StatusCode := 200,
            Body := some ⟨"", none⟩, Error := none } ⟨200, "200 OK", ⟨"", none⟩⟩) :=
  ⟨(visit_status homeCrawler homeLib ⟨none, mkURL "http" "h" "/missing.css"⟩
      ⟨404, "404 Not Found", ⟨"gone", none⟩⟩).2.1 (by decide),
   (visit_status { homeCrawler with Allow404 := true } homeLib
      ⟨none, mkURL "http" "h" "/missing.css"⟩
      ⟨404, "404 Not Found", ⟨"gone", none⟩⟩).2.2.1 (by decide),
   (visit_status homeCrawler homeLib ⟨none, mkURL "http" "h" "/"⟩
      ⟨200, "200 OK", ⟨"", none⟩⟩).2.2.2 (by decide)⟩

/-- C6: `save` removes the first occurrence of ".html" in the file name
(`strings.Replace(file, ".html", "", 1)`), which is the suffix only when no
earlier one exists. For the URL path "/my.html5.html" (file "my.html5.html",
extension ".html") the destination is "build/my5.html/index.html", where
stripping the suffix gives "build/my.html5/index.html". On "/posts/7", "/" and
"/a/index.html" the two agree. -/
theorem save_removes_first_html :
    pathSplit "/my.html5.html" = ("/", "my.html5.html") ∧
    filepathExt "/my.html5.html" = ".html" ∧
    saveFilename "build" "/my.html5.html" = "build/my5.html/index.html" ∧
    specFilename "build" "/my.html5.html" = "build/my.html5/index.html" ∧
    saveFilename "build" "/posts/7" = "build/posts/7/index.html" ∧
    saveFilename "build" "/" = "build/index.html" ∧
    saveFilename "build" "/a/index.html" = "build/a/index.html" := by
  decide

/-- C7, as stated, fails: "http://h/a" and "http://h/a.html", both followed
from the seed "http://h/", map to the same file "build/a/index.html" and have
different fingerprints; so do "http://h/a" and "http://h/a/index.html", the
"http" and "https" URLs of one path, and "/a//x.css" and "/a/x.css". -/
theorem save_collision_distinct_fingerprints :
    (follow (mkURL "http" "h" "/") (mkURL "http" "h" "/a") = true ∧
     follow (mkURL "http" "h" "/") (mkURL "http" "h" "/a.html") = true ∧
     saveFilename "build" (mkURL "http" "h" "/a").Path = "build/a/index.html" ∧
     saveFilename "build" (mkURL "http" "h" "/a.html").Path = "build/a/index.html" ∧
     fingerprint (mkURL "http" "h" "/a") ≠ fingerprint (mkURL "http" "h" "/a.html")) ∧
    (saveFilename "build" (mkURL "http" "h" "/a/index.html").Path = "build/a/index.html" ∧
     fingerprint (mkURL "http" "h" "/a") ≠ fingerprint (mkURL "http" "h" "/a/index.html")) ∧
    (follow (mkURL "http" "h" "/") (mkURL "https" "h" "/x.css") = true ∧
     saveFilename "build" (mkURL "http" "h" "/x.css").Path
       = saveFilename "build" (mkURL "https" "h" "/x.css").Path ∧
     fingerprint (mkURL "http" "h" "/x.css") ≠ fingerprint (mkURL "https" "h" "/x.css")) ∧
    (saveFilename "build" (mkURL "http" "h" "/a//x.css").Path
       = saveFilename "build" (mkURL "http" "h" "/a/x.css").Path ∧
     fingerprint (mkURL "http" "h" "/a//x.css") ≠ fingerprint (mkURL "http" "h" "/a/x.css")) := by
  decide

/-- C7, amended: the destination filename depends on the output directory and
the URL path only, and for two URLs that agree on every component but the
path, whose paths are rooted and clean and have an extension other than
".html", mapping to the same destination filename implies that the URLs are
equal, hence have the same fingerprint. -/
theorem save_collision_same_url (outDir : String) (u1 u2 : URL)
    (hc1 : cleanRooted u1.Path = true) (hc2 : cleanRooted u2.Path = true)
    (he1 : filepathExt u1.Path ≠ ".html") (he2 : filepathExt u2.Path ≠ ".html")
    (hrest : { u1 with Path := "" } = { u2 with Path := "" })
    (h : saveFilename outDir u1.Path = saveFilename outDir u2.Path) :
    u1 = u2 ∧ fingerprint u1 = fingerprint u2 := by
  have hp := saveFilename_inj outDir u1.Path u2.Path hc1 hc2 he1 he2 h
  have e : u1 = u2 := by
    cases u1
    cases u2
    simp only [URL.mk.injEq] at hrest ⊢
    simp only at hp
    tauto
  exact ⟨e, by rw [e]⟩

/-- C7 at "http://h/css/site.css", whose path is rooted and clean with the
extension ".css" and whose destination is "build/css/site.css". -/
theorem save_collision_same_url_witness :
    saveFilename "build" (mkURL "http" "h" "/css/site.css").Path = "build/css/site.css" ∧
    saveFilename "build" (mkURL "http" "h" "/posts/7").Path = "build/posts/7/index.html" ∧
    (mkURL "http" "h" "/css/site.css" = mkURL "http" "h" "/css/site.css" ∧
      fingerprint (mkURL "http" "h" "/css/site.css")
        = fingerprint (mkURL "http" "h" "/css/site.css")) :=
  ⟨by decide, by decide,
   save_collision_same_url "build" (mkURL "http" "h" "/css/site.css")
     (mkURL "http" "h" "/css/site.css") (by decide) (by decide) (by decide) (by decide) rfl rfl⟩

/-- C11: `Generator.Start` builds the crawler from the seed URL, the concurrency
and the HTTP client only, so the crawler's `Allow404` is false whatever the
configuration says. With `allow_404 = true`, a Target answered 404 yields a
resource with status 404 and the error "404 Not Found response", and `save`
writes no file; a crawler with `Allow404` set yields no error, and `save`
writes the body to "build/missing/index.html". -/
theorem start_drops_allow404 :
    (∀ cfg u, (Generator.Start cfg u).Allow404 = false) ∧
    allow404Config.Allow404 = true ∧
    (Crawler.crawlResource (Generator.Start allow404Config (mkURL "http" "h" "/")) homeLib
        ⟨none, mkURL "http" "h" "/missing"⟩ notFound).StatusCode = 404 ∧
    (Crawler.crawlResource (Generator.Start allow404Config (mkURL "http" "h" "/")) homeLib
        ⟨none, mkURL "http" "h" "/missing"⟩ notFound).Error = some "404 Not Found response" ∧
    (Generator.save allow404Config
        (Crawler.crawlResource (Generator.Start allow404Config (mkURL "http" "h" "/")) homeLib
          ⟨none, mkURL "http" "h" "/missing"⟩ notFound)).2 = none ∧
    (Crawler.crawlResource
        { Generator.Start allow404Config (mkURL "http" "h" "/") with Allow404 := true } homeLib
        ⟨none, mkURL "http" "h" "/missing"⟩ notFound).Error = none ∧
    (Generator.save allow404Config
        (Crawler.crawlResource
          { Generator.Start allow404Config (mkURL "http" "h" "/") with Allow404 := true } homeLib
          ⟨none, mkURL "http" "h" "/missing"⟩ notFound)).2
      = some ("build/missing/index.html", some ⟨"<h1>Not found</h1>", none⟩) := by
  refine ⟨fun _ _ => rfl, ?_⟩
  decide

/-- C12: `parseImports` resolves the reference as parsed, without clearing its
query and fragment as `parseLinks` does. On the style sheet
"http://h/style.css" the import "reset.css?v=2#top" is emitted as
"http://h/reset.css?v=2#top", whose fingerprint differs from that of
"http://h/reset.css"; the same reference in an `href` of an HTML page is
emitted as "http://h/reset.css". -/
theorem parseImports_keeps_query :
    (mkURL "http" "h" "/style.css").RawQuery = "" ∧
    (mkURL "http" "h" "/style.css").Fragment = "" ∧
    parseImports cssLib "@import \"reset.css?v=2#top\";" (mkURL "http" "h" "/")
        (mkURL "http" "h" "/style.css")
      = Except.ok [{ mkURL "http" "h" "/reset.css" with RawQuery := "v=2", Fragment := "top" }] ∧
    fingerprint { mkURL "http" "h" "/reset.css" with RawQuery := "v=2", Fragment := "top" }
      = "http://h/reset.css?v=2#top" ∧
    fingerprint (mkURL "http" "h" "/reset.css") = "http://h/reset.css" ∧
    parseLinks cssLib [⟨some "reset.css?v=2#top", none⟩] (mkURL "http" "h" "/")
        (mkURL "http" "h" "/style.css")
      = [mkURL "http" "h" "/reset.css"] := by
  refine ⟨rfl, rfl, rfl, ?_, ?_, ?_⟩ <;> decide

/-- C13: in every state reached from `Start`, the pending counter is the number
of accepted Targets whose resource has not been emitted (the accepted Targets
being the emitted and the unemitted ones), so it is greater than zero
whenever some accepted Target has not had its resource emitted; and a
transition that closes `done` starts from a state where pending is zero and
leaves no Target unemitted. -/
theorem pending_counts_unemitted (c : Crawler) (lib : Lib) (server : URL → Exchange)
    (acts : List Action) (s : CrawlState) (h : run c lib server c.Start acts = some s) :
    s.pending = (s.unemitted.length : Int) ∧
    s.accepted.Perm (s.emitted ++ s.unemitted) ∧
    (∀ t, s.emitted.count t < s.accepted.count t → 0 < s.pending) ∧
    (s.unemitted ≠ [] → 0 < s.pending) ∧
    (∀ a s1, step c lib server s a = some s1 → s.done = false → s1.done = true →
      s.pending = 0 ∧ s1.pending = 0 ∧ s1.unemitted = []) := by
  obtain ⟨hp, hperm⟩ := run_counted c lib server acts c.Start s (start_counted c) h
  have hne : s.unemitted ≠ [] → 0 < s.pending := by
    intro hu
    have : 0 < s.unemitted.length := List.length_pos.2 hu
    omega
  refine ⟨hp, hperm, ?_, hne, ?_⟩
  · intro t ht
    apply hne
    intro he
    have := (List.perm_iff_count.1 hperm) t
    rw [he, List.append_nil] at this
    omega
  · intro a s1 hs hd hd1
    cases a with
    | queue u =>
      simp only [step, Option.some.injEq] at hs
      subst hs
      simp [CrawlState.Queue, hd] at hd1
    | receive i =>
      simp only [step] at hs
      split at hs
      · split at hs
        · cases hs
        · simp only [Option.some.injEq] at hs
          subst hs
          simp [hd] at hd1
      · cases hs
    | process i =>
      simp only [step] at hs
      split at hs
      · cases hs
      · split at hs
        · simp only [Option.some.injEq] at hs
          subst hs
          simp [hd] at hd1
        · simp only [Option.some.injEq] at hs
          subst hs
          simp [hd] at hd1
    | emit i =>
      simp only [step] at hs
      split at hs
      · cases hs
      · simp only [Option.some.injEq] at hs
        subst hs
        simp [hd] at hd1
    | supervise =>
      simp only [step] at hs
      split at hs
      · rename_i hg
        simp only [Option.some.injEq] at hs
        subst hs
        refine ⟨hg.1, hg.1, ?_⟩
        have hz : s.unemitted.length = 0 := by
          have := hg.1
          omega
        exact List.length_eq_zero.1 hz
      · cases hs

/-- C13 on the one-page site: after the seed has been processed the seed and its
child are unemitted and pending is 2; when both resources have been emitted
the supervisor closes `done` with pending zero. -/
theorem pending_counts_unemitted_witness :
    (run homeCrawler homeLib homeServer homeCrawler.Start [Action.receive 0, Action.process 0]
        = some homeMidway ∧
      homeMidway.emitted.count ⟨none, mkURL "http" "h" "/"⟩
        < homeMidway.accepted.count ⟨none, mkURL "http" "h" "/"⟩ ∧
      homeMidway.unemitted ≠ [] ∧ homeMidway.pending = 2 ∧ 0 < homeMidway.pending) ∧
    (run homeCrawler homeLib homeServer homeCrawler.Start
        [Action.receive 0, Action.process 0, Action.emit 0, Action.receive 1, Action.process 0,
         Action.emit 0] = some homeDrained ∧
      step homeCrawler homeLib homeServer homeDrained Action.supervise
        = some { homeDrained with done := true } ∧
      homeDrained.done = false ∧
      homeDrained.pending = 0 ∧ ({ homeDrained with done := true } : CrawlState).unemitted = []) :=
  ⟨⟨by decide, by decide, by decide, by decide,
    (pending_counts_unemitted homeCrawler homeLib homeServer
      [Action.receive 0, Action.process 0] homeMidway (by decide)).2.2.1
      ⟨none, mkURL "http" "h" "/"⟩ (by decide)⟩,
   ⟨by decide, by decide, by decide,
    ((pending_counts_unemitted homeCrawler homeLib homeServer
      [Action.receive 0, Action.process 0, Action.emit 0, Action.receive 1, Action.process 0,
       Action.emit 0] homeDrained (by decide)).2.2.2.2 Action.supervise
      { homeDrained with done := true } (by decide) (by decide) (by decide)).1,
    ((pending_counts_unemitted homeCrawler homeLib homeServer
      [Action.receive 0, Action.process 0, Action.emit 0, Action.receive 1, Action.process 0,
       Action.emit 0] homeDrained (by decide)).2.2.2.2 Action.supervise
      { homeDrained with done := true } (by decide) (by decide) (by decide)).2.2⟩⟩

end Staticgen
